import Mathlib

/-!
Verification of the tree kernels of the `hello-algo-live` repository
(`src/base/src/avl_tree.rs`, `src/base/src/binary_tree.rs`, `src/base/src/lib.rs`).

The Rust code stores nodes as `Option<Rc<RefCell<Node>>>`; the shallow
embedding renders an optional node as an inductive tree with a `nil`
constructor.  A Rust `unwrap()` that could panic is rendered as an
`Option`-valued result, `none` standing for the panic.
-/

/-- Embedding of `avl_tree.rs`: `OptionNodeRc<T>`, i.e. an optional
`AvlTreeNode { value, height, left, right }`.  The `height` field is the
cached height, exactly as stored in the Rust struct. -/
inductive AvlNode (α : Type) : Type where
  | nil : AvlNode α
  | node (value : α) (height : Int) (left : AvlNode α) (right : AvlNode α) : AvlNode α
deriving DecidableEq, Repr

/-- `fn height(node: &OptionNodeRc<T>) -> i32`: `-1` for an absent node,
else the cached `height` field. -/
def heightOf {α : Type} : AvlNode α → Int
  | .nil => -1
  | .node _ h _ _ => h

/-- `fn update_height(node: &NodeRc<T>)`: recompute the cached height of the
root from the two children (`max + 1`).  On `nil` (never reached in the
source, which only calls it on live nodes) it is the identity. -/
def update_height {α : Type} : AvlNode α → AvlNode α
  | .nil => .nil
  | .node v _ l r => .node v (max (heightOf l) (heightOf r) + 1) l r

/-- `fn balance_factor(node: &OptionNodeRc<T>) -> i32`: 0 for an absent
node, else cached height of left minus cached height of right. -/
def balance_factor {α : Type} : AvlNode α → Int
  | .nil => 0
  | .node _ _ l r => heightOf l - heightOf r

/-- `fn right_rotate(node: OptionNodeRc<T>) -> OptionNodeRc<T>`.
The `unwrap()` of `node.left` is rendered as `none` (panic) when the left
child is absent. -/
def right_rotate {α : Type} : AvlNode α → Option (AvlNode α)
  | .nil => some .nil
  | .node v h l r =>
    match l with
    | .nil => none
    | .node lv lh ll lr =>
      some (update_height (.node lv lh ll (update_height (.node v h lr r))))

/-- `fn left_rotate(node: OptionNodeRc<T>) -> OptionNodeRc<T>`, the mirror
image of `right_rotate`. -/
def left_rotate {α : Type} : AvlNode α → Option (AvlNode α)
  | .nil => some .nil
  | .node v h l r =>
    match r with
    | .nil => none
    | .node rv rh rl rr =>
      some (update_height (.node rv rh (update_height (.node v h l rl)) rr))

/-- `fn rotate(node: OptionNodeRc<T>) -> OptionNodeRc<T>`: the decision
table on the balance factor of the node and of the relevant child.  The
`unwrap()` of `node` in the two unbalanced branches is rendered as `none`
on `nil` (the source argues it is unreachable because `balance_factor`
of an absent node is 0). -/
def rotate {α : Type} (t : AvlNode α) : Option (AvlNode α) :=
  let factor := balance_factor t
  if 1 < factor then
    match t with
    | .nil => none
    | .node v h l r =>
      if 0 ≤ balance_factor l then
        right_rotate (.node v h l r)
      else
        (left_rotate l).bind fun l2 => right_rotate (.node v h l2 r)
  else if factor < -1 then
    match t with
    | .nil => none
    | .node v h l r =>
      if balance_factor r ≤ 0 then
        left_rotate (.node v h l r)
      else
        (right_rotate r).bind fun r2 => left_rotate (.node v h l r2)
  else
    some t

/-- `fn insert_recursive<T: Ord>(node: OptionNodeRc<T>, val: T)`.
The three-way `cmp` of the stored value against `val` is rendered by the
equality / order tests of the linear order; on `Equal` the node is
returned untouched (duplicate rejected), otherwise the insertion recurses
into the proper child, then `update_height` and `rotate` repair the node. -/
def insert_recursive {α : Type} [LinearOrder α] : AvlNode α → α → Option (AvlNode α)
  | .nil, val => some (.node val 0 .nil .nil)
  | .node v h l r, val =>
    if v = val then
      some (.node v h l r)
    else if val < v then
      (insert_recursive l val).bind fun l2 => rotate (update_height (.node v h l2 r))
    else
      (insert_recursive r val).bind fun r2 => rotate (update_height (.node v h l r2))

/-- `AvlTree::insert`: replace the root by `insert_recursive(root, val)`. -/
def AvlTree.insert {α : Type} [LinearOrder α] (t : AvlNode α) (val : α) : Option (AvlNode α) :=
  insert_recursive t val

/-- A whole run of `AvlTree::insert` calls starting from the empty tree
(`AvlTree::new` / `From<[T; N]>`).  `none` records that some `unwrap()`
panicked along the way. -/
def AvlTree.ofList {α : Type} [LinearOrder α] (vs : List α) : Option (AvlNode α) :=
  vs.foldlM AvlTree.insert .nil

/-- `AvlTree::search`: descend by three-way comparison, returning the node
where the target was found (rendered as the subtree rooted there). -/
def AvlTree.search {α : Type} [LinearOrder α] : AvlNode α → α → Option (AvlNode α)
  | .nil, _ => none
  | .node v h l r, target =>
    if target = v then some (.node v h l r)
    else if target < v then AvlTree.search l target
    else AvlTree.search r target

/-- In-order value sequence of an AVL subtree. -/
def inorderA {α : Type} : AvlNode α → List α
  | .nil => []
  | .node v _ l r => inorderA l ++ v :: inorderA r

/-- Embedding of `binary_tree.rs`: `OptionNodeRc<T>`, i.e. an optional
`TreeNode { value, left, right }` (no height field). -/
inductive BTree (α : Type) : Type where
  | nil : BTree α
  | node (value : α) (left : BTree α) (right : BTree α) : BTree α
deriving DecidableEq, Repr

/-- `fn clone_tree<T: Clone>`: the value/shape copy of an AVL subtree into
a plain `TreeNode` tree, dropping the height metadata (`AvlTree::to_tree`). -/
def clone_tree {α : Type} : AvlNode α → BTree α
  | .nil => .nil
  | .node v _ l r => .node v (clone_tree l) (clone_tree r)

/-- `bt::in_order`: in-order (left-root-right) value sequence, as produced
by `in_order_recursive` pushing into a vector. -/
def bt.in_order {α : Type} : BTree α → List α
  | .nil => []
  | .node v l r => bt.in_order l ++ v :: bt.in_order r

/-- `bt::pre_order`. -/
def bt.pre_order {α : Type} : BTree α → List α
  | .nil => []
  | .node v l r => v :: (bt.pre_order l ++ bt.pre_order r)

/-- `bt::post_order`. -/
def bt.post_order {α : Type} : BTree α → List α
  | .nil => []
  | .node v l r => bt.post_order l ++ bt.post_order r ++ [v]

/-- `bt::contains`: recursive existence search with short-circuit `||`. -/
def bt.contains {α : Type} [DecidableEq α] : BTree α → α → Bool
  | .nil, _ => false
  | .node v l r, val =>
    if v = val then true else bt.contains l val || bt.contains r val

/-- Size (node count) of a plain tree. -/
def BTree.size {α : Type} : BTree α → Nat
  | .nil => 0
  | .node _ l r => l.size + r.size + 1

/-- The worklist loop of `bt::contains_bfs`: a FIFO queue of live nodes,
popped from the front; children pushed at the back when present.  The Rust
queue only ever holds live (non-null) nodes; the `nil` entry case is the
unreachable totality case and is skipped. -/
def bfs_loop {α : Type} [DecidableEq α] (val : α) : List (BTree α) → Bool
  | [] => false
  | .nil :: rest => bfs_loop val rest
  | .node v l r :: rest =>
    if v = val then true
    else
      bfs_loop val
        (rest ++ (match l with | .nil => [] | .node a b c => [BTree.node a b c])
              ++ (match r with | .nil => [] | .node a b c => [BTree.node a b c]))
termination_by q => ((q.map BTree.size).sum, q.length)
decreasing_by
  · simp only [List.map_cons, List.sum_cons, BTree.size, Nat.zero_add, List.length_cons]
    exact Prod.Lex.right _ (Nat.lt_succ_self _)
  · refine Prod.Lex.left _ _ ?_
    rcases l with _ | ⟨a, b, c⟩ <;> rcases r with _ | ⟨d, e, f⟩ <;>
      simp [BTree.size] <;> omega

/-- `bt::contains_bfs`: push the root if present, then run the queue loop. -/
def bt.contains_bfs {α : Type} [DecidableEq α] (root : BTree α) (val : α) : Bool :=
  bfs_loop val (match root with | .nil => [] | .node a b c => [BTree.node a b c])

/-- The worklist loop of `bt::contains_dfs`: a LIFO stack (head of the
list is the top).  Rust pushes `left` then `right`, so `right` is popped
first: the new stack is `right ++ left ++ rest`. -/
def dfs_loop {α : Type} [DecidableEq α] (val : α) : List (BTree α) → Bool
  | [] => false
  | .nil :: rest => dfs_loop val rest
  | .node v l r :: rest =>
    if v = val then true
    else
      dfs_loop val
        ((match r with | .nil => [] | .node a b c => [BTree.node a b c])
          ++ (match l with | .nil => [] | .node a b c => [BTree.node a b c]) ++ rest)
termination_by q => ((q.map BTree.size).sum, q.length)
decreasing_by
  · simp only [List.map_cons, List.sum_cons, BTree.size, Nat.zero_add, List.length_cons]
    exact Prod.Lex.right _ (Nat.lt_succ_self _)
  · refine Prod.Lex.left _ _ ?_
    rcases l with _ | ⟨a, b, c⟩ <;> rcases r with _ | ⟨d, e, f⟩ <;>
      simp [BTree.size] <;> omega

/-- `bt::contains_dfs`: push the root if present, then run the stack loop. -/
def bt.contains_dfs {α : Type} [DecidableEq α] (root : BTree α) (val : α) : Bool :=
  dfs_loop val (match root with | .nil => [] | .node a b c => [BTree.node a b c])

/-- `BinarySearchTree::search`: iterative descent by three-way comparison;
returns the node where the target was found (rendered as the subtree
rooted there), or `none` when the descent falls off the tree. -/
def BinarySearchTree.search {α : Type} [LinearOrder α] : BTree α → α → Option (BTree α)
  | .nil, _ => none
  | .node v l r, target =>
    if target = v then some (.node v l r)
    else if target < v then BinarySearchTree.search l target
    else BinarySearchTree.search r target

/-- `BinarySearchTree::insert`: the iterative descent tracking `previous`
attaches a fresh leaf under the last node visited (or returns on a
duplicate); rendered as the equivalent recursive rebuild performing the
same three-way comparisons. -/
def BinarySearchTree.insert {α : Type} [LinearOrder α] : BTree α → α → BTree α
  | .nil, val => .node val .nil .nil
  | .node v l r, val =>
    if val = v then .node v l r
    else if val < v then .node v (BinarySearchTree.insert l val) r
    else .node v l (BinarySearchTree.insert r val)

/-- The successor scan in `BinarySearchTree::remove`: from `current.right`
descend `left` while possible; returns the value of the node reached
(the leftmost value, i.e. the in-order head of the subtree). -/
def leftmost_value {α : Type} : BTree α → Option α
  | .nil => none
  | .node v l _ =>
    match l with
    | .nil => some v
    | .node lv ll lr => leftmost_value (.node lv ll lr)

/-- `BinarySearchTree::remove`: iterative descent to the target, then the
0/1-child case splices `left.or(right)` in place of the node, and the
2-children case removes the in-order successor by value (a recursive
whole-tree `remove`, which retraces the same descent) and overwrites the
node value with it.  Rendered as the equivalent recursive rebuild. -/
def BinarySearchTree.remove {α : Type} [LinearOrder α] : BTree α → α → BTree α
  | .nil, _ => .nil
  | .node v l r, val =>
    if val = v then
      match l, r with
      | .nil, _ => r
      | .node lv ll lr, .nil => BTree.node lv ll lr
      | .node lv ll lr, .node rv rl rr =>
        match leftmost_value (.node rv rl rr) with
        | none => .node v (.node lv ll lr) (.node rv rl rr)
        | some nv =>
          .node nv (.node lv ll lr) (BinarySearchTree.remove (.node rv rl rr) nv)
    else if val < v then .node v (BinarySearchTree.remove l val) r
    else .node v l (BinarySearchTree.remove r val)

/-- One `BinarySearchTree` API call: `insert` or `remove`. -/
inductive BstOp (α : Type) : Type where
  | ins (v : α) : BstOp α
  | del (v : α) : BstOp α
deriving DecidableEq, Repr

/-- A `BinarySearchTree` built from `new()` by a sequence of `insert` and
`remove` calls (the only mutators the type exposes). -/
def BinarySearchTree.ofOps {α : Type} [LinearOrder α] (ops : List (BstOp α)) : BTree α :=
  ops.foldl
    (fun t op =>
      match op with
      | .ins v => BinarySearchTree.insert t v
      | .del v => BinarySearchTree.remove t v)
    .nil

/-- A `BinarySearchTree` built by insertions only (`From<[T; N]>`). -/
def BinarySearchTree.ofList {α : Type} [LinearOrder α] (vs : List α) : BTree α :=
  vs.foldl BinarySearchTree.insert .nil

/-- Path from a root to a position: `false` steps left, `true` steps right. -/
def subtreeAt {α : Type} : BTree α → List Bool → Option (BTree α)
  | t, [] => some t
  | .nil, _ :: _ => none
  | .node _ l r, d :: p => subtreeAt (if d then r else l) p

/-- Replace the subtree at a position (used to render the in-place
mutation through an `Rc` handle that `BinaryTree::insert` performs). -/
def graft {α : Type} : BTree α → List Bool → BTree α → BTree α
  | _, [], s => s
  | .nil, _ :: _, _ => .nil
  | .node v l r, d :: p, s =>
    if d then .node v l (graft r p s) else .node v (graft l p s) r

/-- The queue loop of `BinaryTree::insert`: a FIFO of live nodes (kept
with their position in the whole tree `t`so the pointer write can be
rendered as a `graft`).  The first node lacking a left child receives the
new leaf on the left; else if lacking a right child, on the right; else
both children are pushed.  Falling off the loop returns `t` unchanged
(in Rust the `while` simply ends). -/
def insert_level_loop {α : Type} (val : α) (t : BTree α) :
    List (List Bool × BTree α) → BTree α
  | [] => t
  | (_, .nil) :: rest => insert_level_loop val t rest
  | (p, .node v l r) :: rest =>
    match l with
    | .nil => graft t p (.node v (.node val .nil .nil) r)
    | .node la lb lc =>
      match r with
      | .nil => graft t p (.node v (.node la lb lc) (.node val .nil .nil))
      | .node ra rb rc =>
        insert_level_loop val t
          (rest ++ [(p ++ [false], BTree.node la lb lc), (p ++ [true], BTree.node ra rb rc)])
termination_by q => ((q.map fun e => BTree.size e.2).sum, q.length)
decreasing_by
  · simp only [List.map_cons, List.sum_cons, BTree.size, Nat.zero_add, List.length_cons]
    exact Prod.Lex.right _ (Nat.lt_succ_self _)
  · refine Prod.Lex.left _ _ ?_
    simp [BTree.size]
    omega

/-- `BinaryTree::insert`: empty tree gets the new node as root, else the
level-order scan attaches the new node at the first gap. -/
def BinaryTree.insert {α : Type} (t : BTree α) (val : α) : BTree α :=
  match t with
  | .nil => .node val .nil .nil
  | .node v l r => insert_level_loop val (.node v l r) [([], BTree.node v l r)]

/-- Multiset of values stored in a plain tree. -/
def BTree.values {α : Type} : BTree α → Multiset α
  | .nil => 0
  | .node v l r => v ::ₘ (l.values + r.values)

/-! ## Invariants of the AVL tree -/

/-- Cached heights are consistent: at every node the stored `height`
equals `1 + max(height(left), height(right))`, an absent child counting
as height `-1` (`heightOf`). -/
def Hok {α : Type} : AvlNode α → Prop
  | .nil => True
  | .node _ h l r => Hok l ∧ Hok r ∧ h = max (heightOf l) (heightOf r) + 1

/-- Every node's balance factor (cached height of left minus cached
height of right) lies in `[-1, 1]`. -/
def BalancedBF {α : Type} : AvlNode α → Prop
  | .nil => True
  | .node _ _ l r =>
    BalancedBF l ∧ BalancedBF r ∧
      -1 ≤ heightOf l - heightOf r ∧ heightOf l - heightOf r ≤ 1

/-- The real (recomputed, cache-independent) height of a subtree:
`-1` for an absent subtree, else `1 + max` of the children. -/
def rheight {α : Type} : AvlNode α → Int
  | .nil => -1
  | .node _ _ l r => max (rheight l) (rheight r) + 1

/-- Every node's balance factor computed from real subtree heights lies
in `[-1, 1]` — the AVL invariant exactly as the specification words it. -/
def BalancedReal {α : Type} : AvlNode α → Prop
  | .nil => True
  | .node _ _ l r =>
    BalancedReal l ∧ BalancedReal r ∧
      -1 ≤ rheight l - rheight r ∧ rheight l - rheight r ≤ 1

/-- `p` holds at every value stored in the subtree. -/
def AllNodes {α : Type} (p : α → Prop) : AvlNode α → Prop
  | .nil => True
  | .node v _ l r => AllNodes p l ∧ p v ∧ AllNodes p r

/-- Binary-search ordering: left subtree strictly below the node value,
right subtree strictly above, recursively. -/
def OrderedA {α : Type} [LT α] : AvlNode α → Prop
  | .nil => True
  | .node v _ l r =>
    OrderedA l ∧ OrderedA r ∧ AllNodes (fun x => x < v) l ∧ AllNodes (fun x => v < x) r

/-- `p` holds at every value stored in the plain tree. -/
def BAll {α : Type} (p : α → Prop) : BTree α → Prop
  | .nil => True
  | .node v l r => BAll p l ∧ p v ∧ BAll p r

/-- Binary-search ordering of a plain tree. -/
def OrderedB {α : Type} [LT α] : BTree α → Prop
  | .nil => True
  | .node v l r =>
    OrderedB l ∧ OrderedB r ∧ BAll (fun x => x < v) l ∧ BAll (fun x => v < x) r

/-- One step of the presence bookkeeping: after `insert v` a value equal
to `v` is present; after `remove v` it is absent; other values keep their
previous status. -/
def presentStep {α : Type} [DecidableEq α] (x : α) (b : Bool) (op : BstOp α) : Bool :=
  match op with
  | .ins v => if v = x then true else b
  | .del v => if v = x then false else b

/-- Whether `x` is present after running the calls of `ops` in order,
starting from the empty tree. -/
def presentAfter {α : Type} [DecidableEq α] (ops : List (BstOp α)) (x : α) : Bool :=
  ops.foldl (presentStep x) false

/-- The ascending run `1..N` of the specification scenario. -/
def ascRun (N : ℕ) : List ℤ := (List.range N).map (fun (i : ℕ) => (i : ℤ) + 1)

theorem Hok_height_eq_rheight {α : Type} (t : AvlNode α) (hk : Hok t) :
    heightOf t = rheight t := by
  induction t with
  | nil => rfl
  | node v h l r ihl ihr =>
    obtain ⟨hl, hr, hh⟩ := hk
    show h = max (rheight l) (rheight r) + 1
    rw [hh, ihl hl, ihr hr]

theorem neg_one_le_height {α : Type} (t : AvlNode α) (hk : Hok t) :
    -1 ≤ heightOf t := by
  induction t with
  | nil => simp [heightOf]
  | node v h l r ihl ihr =>
    obtain ⟨hl, hr, hh⟩ := hk
    have h1 := ihl hl
    have h2 := ihr hr
    show -1 ≤ h
    omega

theorem exists_node_of_height {α : Type} (t : AvlNode α) (h0 : 0 ≤ heightOf t) :
    ∃ v h l r, t = AvlNode.node v h l r := by
  cases t with
  | nil => simp [heightOf] at h0
  | node v h l r => exact ⟨v, h, l, r, rfl⟩

theorem AllNodes_iff_mem {α : Type} (p : α → Prop) (t : AvlNode α) :
    AllNodes p t ↔ ∀ x ∈ inorderA t, p x := by
  induction t with
  | nil => simp [AllNodes, inorderA]
  | node v h l r ihl ihr =>
    simp only [AllNodes, inorderA, List.mem_append, List.mem_cons, ihl, ihr]
    constructor
    · rintro ⟨h1, h2, h3⟩ x (hx | hx | hx)
      · exact h1 x hx
      · exact hx ▸ h2
      · exact h3 x hx
    · intro hh
      exact ⟨fun x hx => hh x (Or.inl hx), hh v (Or.inr (Or.inl rfl)),
        fun x hx => hh x (Or.inr (Or.inr hx))⟩

theorem AllNodes_mono {α : Type} {p q : α → Prop} (hpq : ∀ x, p x → q x)
    (t : AvlNode α) (hp : AllNodes p t) : AllNodes q t := by
  induction t with
  | nil => trivial
  | node v h l r ihl ihr =>
    obtain ⟨h1, h2, h3⟩ := hp
    exact ⟨ihl h1, hpq v h2, ihr h3⟩

/-- Concatenating a sorted run, a middle element above the first run, and
a sorted run above the middle element yields a sorted list. -/
theorem sorted_append_middle {α : Type} [LinearOrder α] {l1 l2 : List α} {v : α}
    (h1 : List.Sorted (fun a b => a < b) l1) (h2 : List.Sorted (fun a b => a < b) l2)
    (ha : ∀ x ∈ l1, x < v) (hb : ∀ x ∈ l2, v < x) :
    List.Sorted (fun a b => a < b) (l1 ++ v :: l2) := by
  rw [List.Sorted, List.pairwise_append]
  refine ⟨h1, ?_, ?_⟩
  · rw [List.pairwise_cons]
    exact ⟨hb, h2⟩
  · intro a hal b hbl
    rcases List.mem_cons.mp hbl with hbv | hb2
    · exact hbv ▸ ha a hal
    · exact lt_trans (ha a hal) (hb b hb2)

theorem OrderedA_sorted {α : Type} [LinearOrder α] (t : AvlNode α) (ho : OrderedA t) :
    List.Sorted (fun a b => a < b) (inorderA t) := by
  induction t with
  | nil => simp [inorderA]
  | node v h l r ihl ihr =>
    obtain ⟨h1, h2, h3, h4⟩ := ho
    exact sorted_append_middle (ihl h1) (ihr h2)
      ((AllNodes_iff_mem _ _).mp h3) ((AllNodes_iff_mem _ _).mp h4)

theorem Hok_balancedBF_iff_real {α : Type} (t : AvlNode α) (hk : Hok t) :
    BalancedBF t ↔ BalancedReal t := by
  induction t with
  | nil => simp [BalancedBF, BalancedReal]
  | node v h l r ihl ihr =>
    obtain ⟨hl, hr, hh⟩ := hk
    show (BalancedBF l ∧ BalancedBF r ∧ _ ∧ _) ↔ (BalancedReal l ∧ BalancedReal r ∧ _ ∧ _)
    rw [ihl hl, ihr hr, Hok_height_eq_rheight l hl, Hok_height_eq_rheight r hr]

/-- If the (cached) balance factor lies in `[-1, 1]`, `rotate` is the
identity: the final `else` branch of the decision table. -/
theorem rotate_of_balanced {α : Type} (t : AvlNode α)
    (h1 : -1 ≤ balance_factor t) (h2 : balance_factor t ≤ 1) :
    rotate t = some t := by
  simp only [rotate]
  rw [if_neg (by omega), if_neg (by omega)]

/-! ## Computation lemmas for the rotation pipeline -/

theorem heightOf_node {α : Type} (v : α) (h : Int) (l r : AvlNode α) :
    heightOf (AvlNode.node v h l r) = h := rfl

theorem bf_node {α : Type} (v : α) (h : Int) (l r : AvlNode α) :
    balance_factor (AvlNode.node v h l r) = heightOf l - heightOf r := rfl

theorem update_height_node {α : Type} (v : α) (h : Int) (l r : AvlNode α) :
    update_height (AvlNode.node v h l r) =
      AvlNode.node v (max (heightOf l) (heightOf r) + 1) l r := rfl

theorem right_rotate_eq {α : Type} (v lv : α) (h lh : Int) (ll lr r : AvlNode α) :
    right_rotate (AvlNode.node v h (AvlNode.node lv lh ll lr) r) =
      some (AvlNode.node lv (max (heightOf ll) (max (heightOf lr) (heightOf r) + 1) + 1) ll
        (AvlNode.node v (max (heightOf lr) (heightOf r) + 1) lr r)) := rfl

theorem left_rotate_eq {α : Type} (v rv : α) (h rh : Int) (l rl rr : AvlNode α) :
    left_rotate (AvlNode.node v h l (AvlNode.node rv rh rl rr)) =
      some (AvlNode.node rv (max (max (heightOf l) (heightOf rl) + 1) (heightOf rr) + 1)
        (AvlNode.node v (max (heightOf l) (heightOf rl) + 1) l rl) rr) := rfl

/-- Decision table, row 1: left-heavy with left child balance factor `≥ 0`
resolves to a single right rotation. -/
theorem rotate_LL {α : Type} (v : α) (h : Int) (l r : AvlNode α)
    (hf : 1 < heightOf l - heightOf r) (hc : 0 ≤ balance_factor l) :
    rotate (AvlNode.node v h l r) = right_rotate (AvlNode.node v h l r) := by
  simp only [rotate, bf_node]
  rw [if_pos hf]
  exact if_pos hc

/-- Decision table, row 2: left-heavy with left child balance factor `< 0`
resolves to a left rotation of the left child followed by a right rotation. -/
theorem rotate_LR {α : Type} (v : α) (h : Int) (l r l2 : AvlNode α)
    (hf : 1 < heightOf l - heightOf r) (hc : balance_factor l < 0)
    (hrot : left_rotate l = some l2) :
    rotate (AvlNode.node v h l r) = right_rotate (AvlNode.node v h l2 r) := by
  simp only [rotate, bf_node]
  rw [if_pos hf]
  exact (if_neg (not_le.mpr hc)).trans (by rw [hrot]; rfl)

/-- Decision table, row 3: right-heavy with right child balance factor `≤ 0`
resolves to a single left rotation. -/
theorem rotate_RR {α : Type} (v : α) (h : Int) (l r : AvlNode α)
    (hf : heightOf l - heightOf r < -1) (hc : balance_factor r ≤ 0) :
    rotate (AvlNode.node v h l r) = left_rotate (AvlNode.node v h l r) := by
  simp only [rotate, bf_node]
  rw [if_neg (by omega), if_pos hf]
  exact if_pos hc

/-- Decision table, row 4: right-heavy with right child balance factor `> 0`
resolves to a right rotation of the right child followed by a left rotation. -/
theorem rotate_RL {α : Type} (v : α) (h : Int) (l r r2 : AvlNode α)
    (hf : heightOf l - heightOf r < -1) (hc : 0 < balance_factor r)
    (hrot : right_rotate r = some r2) :
    rotate (AvlNode.node v h l r) = left_rotate (AvlNode.node v h l r2) := by
  simp only [rotate, bf_node]
  rw [if_neg (by omega), if_pos hf]
  exact (if_neg (not_le.mpr hc)).trans (by rw [hrot]; rfl)

/-- Repair of a node that became left-heavy by 2 after an insertion on
the left: the `update_height` + `rotate` pipeline returns a subtree that
is height-consistent, balanced, ordered, with the same in-order sequence,
and whose height is the right child height plus 2 or plus 3. -/
theorem rebalance_left {α : Type} [LinearOrder α] (v : α) (h : Int) (l r : AvlNode α)
    (hkl : Hok l) (hkr : Hok r) (hbl : BalancedBF l) (hbr : BalancedBF r)
    (hh : heightOf l = heightOf r + 2)
    (hol : OrderedA l) (hor : OrderedA r)
    (hal : AllNodes (fun x => x < v) l) (har : AllNodes (fun x => v < x) r) :
    ∃ u, rotate (update_height (AvlNode.node v h l r)) = some u ∧
      Hok u ∧ BalancedBF u ∧ OrderedA u ∧
      inorderA u = inorderA l ++ v :: inorderA r ∧
      (heightOf u = heightOf r + 2 ∨ heightOf u = heightOf r + 3) := by
  have hC : -1 ≤ heightOf r := neg_one_le_height r hkr
  obtain ⟨lv, lh, ll, lr, rfl⟩ := exists_node_of_height l (by omega)
  rw [heightOf_node] at hh
  obtain ⟨hkll, hklr, hlh⟩ := hkl
  obtain ⟨bll, blr, lb1, lb2⟩ := hbl
  obtain ⟨holl, holr, hall, halr⟩ := hol
  obtain ⟨hallv, hlvv, halrv⟩ := hal
  have hA : -1 ≤ heightOf ll := neg_one_le_height ll hkll
  have hB : -1 ≤ heightOf lr := neg_one_le_height lr hklr
  rw [update_height_node, heightOf_node]
  by_cases hbf : 0 ≤ heightOf ll - heightOf lr
  · -- single right rotation
    rw [rotate_LL v _ _ r (by rw [heightOf_node]; omega) (by rw [bf_node]; omega),
      right_rotate_eq]
    refine ⟨_, rfl, ⟨hkll, ⟨hklr, hkr, rfl⟩, rfl⟩,
      ⟨bll, ⟨blr, hbr, by omega, by omega⟩,
        by simp only [heightOf_node]; omega, by simp only [heightOf_node]; omega⟩,
      ⟨holl, ⟨holr, hor, halrv, har⟩,
        hall, ⟨halr, hlvv, AllNodes_mono (fun x hx => lt_trans hlvv hx) r har⟩⟩,
      by simp [inorderA], by simp only [heightOf_node]; omega⟩
  · -- left rotation of the left child, then right rotation
    have hB0 : 0 ≤ heightOf lr := by omega
    obtain ⟨mv, mh, ml, mr, rfl⟩ := exists_node_of_height lr hB0
    rw [heightOf_node] at hB0 hB lb1 lb2 hbf hlh
    obtain ⟨hkml, hkmr, hmh⟩ := hklr
    obtain ⟨bml, bmr, mb1, mb2⟩ := blr
    obtain ⟨homl, homr, haml, hamr⟩ := holr
    obtain ⟨halvml, hlvmv, halvmr⟩ := halr
    obtain ⟨hamlv, hmvv, hamrv⟩ := halrv
    have hM1 : -1 ≤ heightOf ml := neg_one_le_height ml hkml
    have hM2 : -1 ≤ heightOf mr := neg_one_le_height mr hkmr
    rw [rotate_LR v _ _ r _ (by rw [heightOf_node]; omega)
      (by simp only [bf_node, heightOf_node]; omega)
      (left_rotate_eq lv mv lh mh ll ml mr), right_rotate_eq]
    refine ⟨_, rfl,
      ⟨⟨hkll, hkml, rfl⟩, ⟨hkmr, hkr, rfl⟩, rfl⟩,
      ⟨⟨bll, bml, by omega, by omega⟩, ⟨bmr, hbr, by omega, by omega⟩,
        by simp only [heightOf_node]; omega, by simp only [heightOf_node]; omega⟩,
      ⟨⟨holl, homl, hall, halvml⟩, ⟨homr, hor, hamrv, har⟩,
        ⟨AllNodes_mono (fun x hx => lt_trans hx hlvmv) ll hall, hlvmv, haml⟩,
        ⟨hamr, hmvv, AllNodes_mono (fun x hx => lt_trans hmvv hx) r har⟩⟩,
      by simp [inorderA], by simp only [heightOf_node]; omega⟩

/-- Repair of a node that became right-heavy by 2 after an insertion on
the right: the mirror image of `rebalance_left`. -/
theorem rebalance_right {α : Type} [LinearOrder α] (v : α) (h : Int) (l r : AvlNode α)
    (hkl : Hok l) (hkr : Hok r) (hbl : BalancedBF l) (hbr : BalancedBF r)
    (hh : heightOf r = heightOf l + 2)
    (hol : OrderedA l) (hor : OrderedA r)
    (hal : AllNodes (fun x => x < v) l) (har : AllNodes (fun x => v < x) r) :
    ∃ u, rotate (update_height (AvlNode.node v h l r)) = some u ∧
      Hok u ∧ BalancedBF u ∧ OrderedA u ∧
      inorderA u = inorderA l ++ v :: inorderA r ∧
      (heightOf u = heightOf l + 2 ∨ heightOf u = heightOf l + 3) := by
  have hC : -1 ≤ heightOf l := neg_one_le_height l hkl
  obtain ⟨rv, rh, rl, rr, rfl⟩ := exists_node_of_height r (by omega)
  rw [heightOf_node] at hh
  obtain ⟨hkrl, hkrr, hrh⟩ := hkr
  obtain ⟨brl, brr, rb1, rb2⟩ := hbr
  obtain ⟨horl, horr, harl, harr⟩ := hor
  obtain ⟨hvrl, hvrv, hvrr⟩ := har
  have hA : -1 ≤ heightOf rl := neg_one_le_height rl hkrl
  have hB : -1 ≤ heightOf rr := neg_one_le_height rr hkrr
  rw [update_height_node, heightOf_node]
  by_cases hbf : heightOf rl - heightOf rr ≤ 0
  · -- single left rotation
    rw [rotate_RR v _ l _ (by rw [heightOf_node]; omega) (by rw [bf_node]; omega),
      left_rotate_eq]
    refine ⟨_, rfl, ⟨⟨hkl, hkrl, rfl⟩, hkrr, rfl⟩,
      ⟨⟨hbl, brl, by omega, by omega⟩, brr,
        by simp only [heightOf_node]; omega, by simp only [heightOf_node]; omega⟩,
      ⟨⟨hol, horl, hal, hvrl⟩, horr,
        ⟨AllNodes_mono (fun x hx => lt_trans hx hvrv) l hal, hvrv, harl⟩, harr⟩,
      by simp [inorderA], by simp only [heightOf_node]; omega⟩
  · -- right rotation of the right child, then left rotation
    have hA0 : 0 ≤ heightOf rl := by omega
    obtain ⟨mv, mh, ml, mr, rfl⟩ := exists_node_of_height rl hA0
    rw [heightOf_node] at hA0 hA rb1 rb2 hbf hrh
    obtain ⟨hkml, hkmr, hmh⟩ := hkrl
    obtain ⟨bml, bmr, mb1, mb2⟩ := brl
    obtain ⟨homl, homr, haml, hamr⟩ := horl
    obtain ⟨hamlrv, hmvrv, hamrrv⟩ := harl
    obtain ⟨hvml, hvmv, hvmr⟩ := hvrl
    have hM1 : -1 ≤ heightOf ml := neg_one_le_height ml hkml
    have hM2 : -1 ≤ heightOf mr := neg_one_le_height mr hkmr
    rw [rotate_RL v _ l _ _ (by rw [heightOf_node]; omega)
      (by simp only [bf_node, heightOf_node]; omega)
      (right_rotate_eq rv mv rh mh ml mr rr), left_rotate_eq]
    refine ⟨_, rfl,
      ⟨⟨hkl, hkml, rfl⟩, ⟨hkmr, hkrr, rfl⟩, rfl⟩,
      ⟨⟨hbl, bml, by omega, by omega⟩, ⟨bmr, brr, by omega, by omega⟩,
        by simp only [heightOf_node]; omega, by simp only [heightOf_node]; omega⟩,
      ⟨⟨hol, homl, hal, hvml⟩, ⟨homr, horr, hamrrv, harr⟩,
        ⟨AllNodes_mono (fun x hx => lt_trans hx hvmv) l hal, hvmv, haml⟩,
        ⟨hamr, hmvrv, AllNodes_mono (fun x hx => lt_trans hmvrv hx) rr harr⟩⟩,
      by simp [inorderA], by simp only [heightOf_node]; omega⟩

theorem or_pull_third {p q s t : Prop} : (q ∨ s ∨ p ∨ t) ↔ p ∨ q ∨ s ∨ t := by tauto

set_option maxHeartbeats 1600000 in
/-- Master specification of `insert_recursive` on a well-formed AVL
subtree: the insertion never panics, preserves the height cache, the
balance invariant and the ordering, adds exactly the new value to the
in-order sequence (a duplicate leaves the tree untouched), and grows the
height by at most one. -/
theorem insert_spec {α : Type} [LinearOrder α] (t : AvlNode α) (val : α)
    (hk : Hok t) (hb : BalancedBF t) (ho : OrderedA t) :
    ∃ u, insert_recursive t val = some u ∧ Hok u ∧ BalancedBF u ∧ OrderedA u ∧
      (∀ x, x ∈ inorderA u ↔ x = val ∨ x ∈ inorderA t) ∧
      (heightOf t ≤ heightOf u ∧ heightOf u ≤ heightOf t + 1) ∧
      (val ∈ inorderA t → u = t) ∧
      (val ∉ inorderA t → (inorderA u).length = (inorderA t).length + 1) := by
  induction t with
  | nil =>
    refine ⟨AvlNode.node val 0 .nil .nil, rfl,
      ⟨trivial, trivial, by simp [heightOf]⟩,
      ⟨trivial, trivial, by simp [heightOf], by simp [heightOf]⟩,
      ⟨trivial, trivial, trivial, trivial⟩,
      by simp [inorderA], by simp [heightOf], by simp [inorderA], by simp [inorderA]⟩
  | node v h l r ihl ihr =>
    obtain ⟨hkl, hkr, hhe⟩ := hk
    obtain ⟨hb_l, hb_r, b1, b2⟩ := hb
    obtain ⟨holc, horc, halc, harc⟩ := ho
    simp only [insert_recursive]
    by_cases hv : v = val
    · rw [if_pos hv]
      have hmt : val ∈ inorderA (AvlNode.node v h l r) := by
        simp only [inorderA, List.mem_append, List.mem_cons]
        exact Or.inr (Or.inl hv.symm)
      exact ⟨AvlNode.node v h l r, rfl, ⟨hkl, hkr, hhe⟩, ⟨hb_l, hb_r, b1, b2⟩,
        ⟨holc, horc, halc, harc⟩,
        fun x => ⟨Or.inr, fun hx => by rcases hx with rfl | hx; exact hmt; exact hx⟩,
        ⟨le_refl _, by omega⟩, fun _ => rfl, fun hn => absurd hmt hn⟩
    · rw [if_neg hv]
      by_cases hlt : val < v
      · -- descend left
        rw [if_pos hlt]
        obtain ⟨l2, hins, hkl2, hbl2, hol2, hmem2, ⟨hge2, hle2⟩, hnoop2, hlen2⟩ :=
          ihl hkl hb_l holc
        rw [hins]
        have hal2 : AllNodes (fun x => x < v) l2 := by
          rw [AllNodes_iff_mem]
          intro x hx
          rcases (hmem2 x).mp hx with rfl | hx2
          · exact hlt
          · exact (AllNodes_iff_mem _ _).mp halc x hx2
        by_cases hmem : val ∈ inorderA l
        · -- duplicate found in the left subtree: everything is unchanged
          have hl2l := hnoop2 hmem
          subst hl2l
          have hmt : val ∈ inorderA (AvlNode.node v h l2 r) := by
            simp only [inorderA, List.mem_append, List.mem_cons]
            exact Or.inl hmem
          have hup : update_height (AvlNode.node v h l2 r) = AvlNode.node v h l2 r := by
            rw [update_height_node, ← hhe]
          refine ⟨AvlNode.node v h l2 r, ?_, ⟨hkl, hkr, hhe⟩, ⟨hb_l, hb_r, b1, b2⟩,
            ⟨holc, horc, halc, harc⟩,
            fun x => ⟨Or.inr, fun hx => by rcases hx with rfl | hx; exact hmt; exact hx⟩,
            ⟨le_refl _, by omega⟩, fun _ => rfl, fun hn => absurd hmt hn⟩
          show rotate (update_height (AvlNode.node v h l2 r)) = some (AvlNode.node v h l2 r)
          rw [hup]
          exact rotate_of_balanced _ (by rw [bf_node]; omega) (by rw [bf_node]; omega)
        · -- genuine insertion on the left
          have hnm : val ∉ inorderA (AvlNode.node v h l r) := by
            simp only [inorderA, List.mem_append, List.mem_cons]
            rintro (hx | hveq | hx)
            · exact hmem hx
            · exact hv hveq.symm
            · exact lt_asymm hlt ((AllNodes_iff_mem _ _).mp harc val hx)
          have hlen2v := hlen2 hmem
          by_cases hskew : heightOf l2 - heightOf r ≤ 1
          · -- still balanced after the update, rotate is the identity
            refine ⟨AvlNode.node v (max (heightOf l2) (heightOf r) + 1) l2 r, ?_,
              ⟨hkl2, hkr, rfl⟩, ⟨hbl2, hb_r, by omega, by omega⟩,
              ⟨hol2, horc, hal2, harc⟩, ?_, ?_, fun hvt => absurd hvt hnm, ?_⟩
            · show rotate (update_height (AvlNode.node v h l2 r)) = _
              rw [update_height_node]
              exact rotate_of_balanced _ (by rw [bf_node]; omega) (by rw [bf_node]; omega)
            · intro x
              simp only [inorderA, List.mem_append, List.mem_cons]
              rw [hmem2 x]
              exact or_assoc
            · simp only [heightOf_node]
              omega
            · intro _
              simp only [inorderA, List.length_append, List.length_cons]
              omega
          · -- the node became left-heavy by two: repair
            have hskew2 : heightOf l2 = heightOf r + 2 := by omega
            obtain ⟨u, hrot, hku, hbu, hou, hino, hhu⟩ :=
              rebalance_left v h l2 r hkl2 hkr hbl2 hb_r hskew2 hol2 horc hal2 harc
            refine ⟨u, hrot, hku, hbu, hou, ?_, ?_, fun hvt => absurd hvt hnm, ?_⟩
            · intro x
              rw [hino]
              simp only [inorderA, List.mem_append, List.mem_cons]
              rw [hmem2 x]
              exact or_assoc
            · simp only [heightOf_node]
              omega
            · intro _
              rw [hino]
              simp only [inorderA, List.length_append, List.length_cons]
              omega
      · -- descend right
        have hgt : v < val := lt_of_le_of_ne (not_lt.mp hlt) hv
        rw [if_neg hlt]
        obtain ⟨r2, hins, hkr2, hbr2, hor2, hmem2, ⟨hge2, hle2⟩, hnoop2, hlen2⟩ :=
          ihr hkr hb_r horc
        rw [hins]
        have har2 : AllNodes (fun x => v < x) r2 := by
          rw [AllNodes_iff_mem]
          intro x hx
          rcases (hmem2 x).mp hx with rfl | hx2
          · exact hgt
          · exact (AllNodes_iff_mem _ _).mp harc x hx2
        by_cases hmem : val ∈ inorderA r
        · have hr2r := hnoop2 hmem
          subst hr2r
          have hmt : val ∈ inorderA (AvlNode.node v h l r2) := by
            simp only [inorderA, List.mem_append, List.mem_cons]
            exact Or.inr (Or.inr hmem)
          have hup : update_height (AvlNode.node v h l r2) = AvlNode.node v h l r2 := by
            rw [update_height_node, ← hhe]
          refine ⟨AvlNode.node v h l r2, ?_, ⟨hkl, hkr, hhe⟩, ⟨hb_l, hb_r, b1, b2⟩,
            ⟨holc, horc, halc, harc⟩,
            fun x => ⟨Or.inr, fun hx => by rcases hx with rfl | hx; exact hmt; exact hx⟩,
            ⟨le_refl _, by omega⟩, fun _ => rfl, fun hn => absurd hmt hn⟩
          show rotate (update_height (AvlNode.node v h l r2)) = some (AvlNode.node v h l r2)
          rw [hup]
          exact rotate_of_balanced _ (by rw [bf_node]; omega) (by rw [bf_node]; omega)
        · have hnm : val ∉ inorderA (AvlNode.node v h l r) := by
            simp only [inorderA, List.mem_append, List.mem_cons]
            rintro (hx | hveq | hx)
            · exact lt_asymm hgt ((AllNodes_iff_mem _ _).mp halc val hx)
            · exact hv hveq.symm
            · exact hmem hx
          have hlen2v := hlen2 hmem
          by_cases hskew : heightOf l - heightOf r2 ≥ -1
          · refine ⟨AvlNode.node v (max (heightOf l) (heightOf r2) + 1) l r2, ?_,
              ⟨hkl, hkr2, rfl⟩, ⟨hb_l, hbr2, by omega, by omega⟩,
              ⟨holc, hor2, halc, har2⟩, ?_, ?_, fun hvt => absurd hvt hnm, ?_⟩
            · show rotate (update_height (AvlNode.node v h l r2)) = _
              rw [update_height_node]
              exact rotate_of_balanced _ (by rw [bf_node]; omega) (by rw [bf_node]; omega)
            · intro x
              simp only [inorderA, List.mem_append, List.mem_cons]
              rw [hmem2 x]
              exact or_pull_third
            · simp only [heightOf_node]
              omega
            · intro _
              simp only [inorderA, List.length_append, List.length_cons]
              omega
          · have hskew2 : heightOf r2 = heightOf l + 2 := by omega
            obtain ⟨u, hrot, hku, hbu, hou, hino, hhu⟩ :=
              rebalance_right v h l r2 hkl hkr2 hb_l hbr2 hskew2 holc hor2 halc har2
            refine ⟨u, hrot, hku, hbu, hou, ?_, ?_, fun hvt => absurd hvt hnm, ?_⟩
            · intro x
              rw [hino]
              simp only [inorderA, List.mem_append, List.mem_cons]
              rw [hmem2 x]
              exact or_pull_third
            · simp only [heightOf_node]
              omega
            · intro _
              rw [hino]
              simp only [inorderA, List.length_append, List.length_cons]
              omega

/-- Running a list of `AvlTree::insert` calls from a well-formed tree
succeeds and preserves all invariants; membership is the union of the
inserted values and the old members, and the node count grows by at most
the number of calls. -/
theorem insert_foldlM_spec {α : Type} [LinearOrder α] (vs : List α) (t : AvlNode α)
    (hk : Hok t) (hb : BalancedBF t) (ho : OrderedA t) :
    ∃ u, List.foldlM AvlTree.insert t vs = some u ∧ Hok u ∧ BalancedBF u ∧ OrderedA u ∧
      (∀ x, x ∈ inorderA u ↔ x ∈ vs ∨ x ∈ inorderA t) ∧
      (inorderA u).length ≤ (inorderA t).length + vs.length := by
  induction vs generalizing t with
  | nil => exact ⟨t, by simp, hk, hb, ho, by simp, by simp⟩
  | cons v vs ih =>
    obtain ⟨t1, hins, hk1, hb1, ho1, hmem1, _, hno, hlen1⟩ := insert_spec t v hk hb ho
    have hlen : (inorderA t1).length ≤ (inorderA t).length + 1 := by
      by_cases hm : v ∈ inorderA t
      · rw [hno hm]
        omega
      · rw [hlen1 hm]
    obtain ⟨u, hfold, hku, hbu, hou, hmemu, hlenu⟩ := ih t1 hk1 hb1 ho1
    refine ⟨u, ?_, hku, hbu, hou, ?_, ?_⟩
    · rw [List.foldlM_cons, show AvlTree.insert t v = some t1 from hins]
      simpa using hfold
    · intro x
      rw [hmemu x, hmem1 x, List.mem_cons, or_assoc]
      exact or_left_comm
    · simp only [List.length_cons]
      omega

/-- Invariants of every `AvlTree` built by a run of insertions from the
empty tree. -/
theorem ofList_spec {α : Type} [LinearOrder α] (vs : List α) :
    ∃ t, AvlTree.ofList vs = some t ∧ Hok t ∧ BalancedBF t ∧ OrderedA t ∧
      (∀ x, x ∈ inorderA t ↔ x ∈ vs) ∧ (inorderA t).length ≤ vs.length := by
  obtain ⟨t, hfold, hk, hb, ho, hmem, hlen⟩ :=
    insert_foldlM_spec vs AvlNode.nil trivial trivial trivial
  refine ⟨t, hfold, hk, hb, ho, fun x => ?_, by simpa [inorderA] using hlen⟩
  rw [hmem x]
  simp [inorderA]

/-! ## Invariants of the binary search tree -/

theorem BAll_iff_mem {α : Type} (p : α → Prop) (t : BTree α) :
    BAll p t ↔ ∀ x ∈ bt.in_order t, p x := by
  induction t with
  | nil => simp [BAll, bt.in_order]
  | node v l r ihl ihr =>
    simp only [BAll, bt.in_order, List.mem_append, List.mem_cons, ihl, ihr]
    constructor
    · rintro ⟨h1, h2, h3⟩ x (hx | hx | hx)
      · exact h1 x hx
      · exact hx ▸ h2
      · exact h3 x hx
    · intro hh
      exact ⟨fun x hx => hh x (Or.inl hx), hh v (Or.inr (Or.inl rfl)),
        fun x hx => hh x (Or.inr (Or.inr hx))⟩

theorem BAll_mono {α : Type} {p q : α → Prop} (hpq : ∀ x, p x → q x)
    (t : BTree α) (hp : BAll p t) : BAll q t := by
  induction t with
  | nil => trivial
  | node v l r ihl ihr =>
    obtain ⟨h1, h2, h3⟩ := hp
    exact ⟨ihl h1, hpq v h2, ihr h3⟩

theorem OrderedB_sorted {α : Type} [LinearOrder α] (t : BTree α) (ho : OrderedB t) :
    List.Sorted (fun a b => a < b) (bt.in_order t) := by
  induction t with
  | nil => simp [bt.in_order]
  | node v l r ihl ihr =>
    obtain ⟨h1, h2, h3, h4⟩ := ho
    exact sorted_append_middle (ihl h1) (ihr h2)
      ((BAll_iff_mem _ _).mp h3) ((BAll_iff_mem _ _).mp h4)

theorem OrderedB_nodup {α : Type} [LinearOrder α] (t : BTree α) (ho : OrderedB t) :
    (bt.in_order t).Nodup :=
  (OrderedB_sorted t ho).nodup

/-- `BinarySearchTree::insert` on an ordered tree: the result is ordered,
its members are the old members plus the new value, and inserting a value
already present returns the tree unchanged. -/
theorem bst_insert_spec {α : Type} [LinearOrder α] (t : BTree α) (val : α)
    (ho : OrderedB t) :
    OrderedB (BinarySearchTree.insert t val) ∧
      (∀ x, x ∈ bt.in_order (BinarySearchTree.insert t val) ↔ x = val ∨ x ∈ bt.in_order t) ∧
      (val ∈ bt.in_order t → BinarySearchTree.insert t val = t) ∧
      (val ∉ bt.in_order t →
        (bt.in_order (BinarySearchTree.insert t val)).length = (bt.in_order t).length + 1) := by
  induction t with
  | nil =>
    exact ⟨⟨trivial, trivial, trivial, trivial⟩, by simp [BinarySearchTree.insert, bt.in_order],
      by simp [bt.in_order], by simp [BinarySearchTree.insert, bt.in_order]⟩
  | node v l r ihl ihr =>
    obtain ⟨hol, hor, hal, har⟩ := ho
    simp only [BinarySearchTree.insert]
    by_cases hv : val = v
    · rw [if_pos hv]
      have hmt : val ∈ bt.in_order (BTree.node v l r) := by
        simp only [bt.in_order, List.mem_append, List.mem_cons]
        exact Or.inr (Or.inl hv)
      exact ⟨⟨hol, hor, hal, har⟩,
        fun x => ⟨Or.inr, fun hx => by rcases hx with rfl | hx; exact hmt; exact hx⟩,
        fun _ => rfl, fun hn => absurd hmt hn⟩
    · rw [if_neg hv]
      by_cases hlt : val < v
      · rw [if_pos hlt]
        obtain ⟨hoi, hmemi, hnoi, hleni⟩ := ihl hol
        have hali : BAll (fun x => x < v) (BinarySearchTree.insert l val) := by
          rw [BAll_iff_mem]
          intro x hx
          rcases (hmemi x).mp hx with rfl | hx2
          · exact hlt
          · exact (BAll_iff_mem _ _).mp hal x hx2
        refine ⟨⟨hoi, hor, hali, har⟩, ?_, ?_, ?_⟩
        · intro x
          simp only [bt.in_order, List.mem_append, List.mem_cons]
          rw [hmemi x]
          exact or_assoc
        · intro hvt
          rcases (by simpa [bt.in_order] using hvt : val ∈ bt.in_order l ∨ val = v ∨
              val ∈ bt.in_order r) with hx | hx | hx
          · rw [hnoi hx]
          · exact absurd hx hv
          · exact absurd ((BAll_iff_mem _ _).mp har val hx) (lt_asymm hlt)
        · intro hvt
          have hnl : val ∉ bt.in_order l := fun hx =>
            hvt (by simp only [bt.in_order, List.mem_append]; exact Or.inl hx)
          simp only [bt.in_order, List.length_append, List.length_cons, hleni hnl]
          omega
      · have hgt : v < val := lt_of_le_of_ne (not_lt.mp hlt) (fun h2 => hv h2.symm)
        rw [if_neg hlt]
        obtain ⟨hoi, hmemi, hnoi, hleni⟩ := ihr hor
        have hari : BAll (fun x => v < x) (BinarySearchTree.insert r val) := by
          rw [BAll_iff_mem]
          intro x hx
          rcases (hmemi x).mp hx with rfl | hx2
          · exact hgt
          · exact (BAll_iff_mem _ _).mp har x hx2
        refine ⟨⟨hol, hoi, hal, hari⟩, ?_, ?_, ?_⟩
        · intro x
          simp only [bt.in_order, List.mem_append, List.mem_cons]
          rw [hmemi x]
          exact or_pull_third
        · intro hvt
          rcases (by simpa [bt.in_order] using hvt : val ∈ bt.in_order l ∨ val = v ∨
              val ∈ bt.in_order r) with hx | hx | hx
          · exact absurd ((BAll_iff_mem _ _).mp hal val hx) (lt_asymm hgt)
          · exact absurd hx hv
          · rw [hnoi hx]
        · intro hvt
          have hnr : val ∉ bt.in_order r := fun hx =>
            hvt (by simp only [bt.in_order, List.mem_append, List.mem_cons]
                    exact Or.inr (Or.inr hx))
          simp only [bt.in_order, List.length_append, List.length_cons, hleni hnr]
          omega

/-- `BinarySearchTree::search` on an ordered tree: a present target is
returned as the node holding it, an absent target yields `none`. -/
theorem bst_search_spec {α : Type} [LinearOrder α] (t : BTree α) (target : α)
    (ho : OrderedB t) :
    (target ∈ bt.in_order t →
      ∃ l2 r2, BinarySearchTree.search t target = some (BTree.node target l2 r2)) ∧
    (target ∉ bt.in_order t → BinarySearchTree.search t target = none) := by
  induction t with
  | nil => exact ⟨fun hx => by simp [bt.in_order] at hx, fun _ => rfl⟩
  | node v l r ihl ihr =>
    obtain ⟨hol, hor, hal, har⟩ := ho
    simp only [BinarySearchTree.search]
    by_cases hv : target = v
    · rw [if_pos hv]
      subst hv
      exact ⟨fun _ => ⟨l, r, rfl⟩,
        fun hn => absurd (by simp [bt.in_order] : target ∈ bt.in_order (BTree.node target l r)) hn⟩
    · rw [if_neg hv]
      by_cases hlt : target < v
      · rw [if_pos hlt]
        have heq : target ∈ bt.in_order (BTree.node v l r) ↔ target ∈ bt.in_order l := by
          simp only [bt.in_order, List.mem_append, List.mem_cons]
          constructor
          · rintro (hx | hx | hx)
            · exact hx
            · exact absurd hx hv
            · exact absurd ((BAll_iff_mem _ _).mp har target hx) (lt_asymm hlt)
          · exact Or.inl
        rw [heq]
        exact ihl hol
      · have hgt : v < target := lt_of_le_of_ne (not_lt.mp hlt) (fun h2 => hv h2.symm)
        rw [if_neg hlt]
        have heq : target ∈ bt.in_order (BTree.node v l r) ↔ target ∈ bt.in_order r := by
          simp only [bt.in_order, List.mem_append, List.mem_cons]
          constructor
          · rintro (hx | hx | hx)
            · exact absurd ((BAll_iff_mem _ _).mp hal target hx) (lt_asymm hgt)
            · exact absurd hx hv
            · exact hx
          · exact fun hx => Or.inr (Or.inr hx)
        rw [heq]
        exact ihr hor

/-- The successor scan returns the head of the in-order sequence of a
non-empty subtree. -/
theorem leftmost_head {α : Type} (t : BTree α) (hne : t ≠ BTree.nil) :
    ∃ x xs, bt.in_order t = x :: xs ∧ leftmost_value t = some x := by
  induction t with
  | nil => exact absurd rfl hne
  | node v l r ihl ihr =>
    cases l with
    | nil => exact ⟨v, bt.in_order r, by simp [bt.in_order], rfl⟩
    | node lv ll lr =>
      obtain ⟨x, xs, hxs, hlm⟩ := ihl (by simp)
      refine ⟨x, xs ++ v :: bt.in_order r, ?_, ?_⟩
      · simp only [bt.in_order] at hxs ⊢
        rw [hxs]
        simp
      · simpa [leftmost_value] using hlm

theorem remove_dup_nilL {α : Type} [LinearOrder α] {v val : α} {r : BTree α} (hv : val = v) :
    BinarySearchTree.remove (BTree.node v BTree.nil r) val = r := if_pos hv

theorem remove_dup_nilR {α : Type} [LinearOrder α] {v val lv : α} {ll lr : BTree α} (hv : val = v) :
    BinarySearchTree.remove (BTree.node v (BTree.node lv ll lr) BTree.nil) val
      = BTree.node lv ll lr := if_pos hv

theorem remove_dup_two {α : Type} [LinearOrder α] {v val lv rv nv : α}
    {ll lr rl rr : BTree α} (hv : val = v)
    (hlm : leftmost_value (BTree.node rv rl rr) = some nv) :
    BinarySearchTree.remove (BTree.node v (BTree.node lv ll lr) (BTree.node rv rl rr)) val
      = BTree.node nv (BTree.node lv ll lr)
          (BinarySearchTree.remove (BTree.node rv rl rr) nv) :=
  (if_pos hv).trans (by rw [hlm])

theorem remove_lt {α : Type} [LinearOrder α] {v val : α} {l r : BTree α}
    (hne : ¬val = v) (h : val < v) :
    BinarySearchTree.remove (BTree.node v l r) val
      = BTree.node v (BinarySearchTree.remove l val) r := by
  rw [BinarySearchTree.remove.eq_def]
  exact (if_neg hne).trans (if_pos h)

theorem remove_gt {α : Type} [LinearOrder α] {v val : α} {l r : BTree α}
    (hne : ¬val = v) (h : ¬val < v) :
    BinarySearchTree.remove (BTree.node v l r) val
      = BTree.node v l (BinarySearchTree.remove r val) := by
  rw [BinarySearchTree.remove.eq_def]
  exact (if_neg hne).trans (if_neg h)

theorem in_order_node {α : Type} (v : α) (l r : BTree α) :
    bt.in_order (BTree.node v l r) = bt.in_order l ++ v :: bt.in_order r := rfl

/-- `BinarySearchTree::remove` on an ordered tree: the result is ordered
and its in-order sequence is the old one with the single occurrence of
the value erased; removing an absent value leaves the sequence unchanged. -/
theorem bst_remove_spec {α : Type} [LinearOrder α] (t : BTree α) (val : α)
    (ho : OrderedB t) :
    OrderedB (BinarySearchTree.remove t val) ∧
      bt.in_order (BinarySearchTree.remove t val) = (bt.in_order t).erase val := by
  induction t generalizing val with
  | nil => exact ⟨trivial, by simp [BinarySearchTree.remove, bt.in_order]⟩
  | node v l r ihl ihr =>
    obtain ⟨hol, hor, hal, har⟩ := ho
    by_cases hv : val = v
    · subst hv
      have hvl : val ∉ bt.in_order l := fun hx =>
        lt_irrefl val ((BAll_iff_mem _ _).mp hal val hx)
      have herase : (bt.in_order (BTree.node val l r)).erase val
          = bt.in_order l ++ bt.in_order r := by
        simp only [bt.in_order]
        rw [List.erase_append_right _ hvl, List.erase_cons_head]
      rw [herase]
      cases l with
      | nil => rw [remove_dup_nilL rfl]; exact ⟨hor, by simp [bt.in_order]⟩
      | node lv ll lr =>
        cases r with
        | nil => rw [remove_dup_nilR rfl]; exact ⟨hol, by simp [bt.in_order]⟩
        | node rv rl rr =>
          obtain ⟨x, xs, hxs, hlm⟩ := leftmost_head (BTree.node rv rl rr) (by simp)
          rw [remove_dup_two rfl hlm]
          have hxr : x ∈ bt.in_order (BTree.node rv rl rr) := by rw [hxs]; simp
          obtain ⟨hore, here⟩ := ihr x hor
          have hsr := OrderedB_sorted _ hor
          rw [hxs] at hsr
          have hxtail : ∀ y ∈ xs, x < y := (List.sorted_cons.mp hsr).1
          refine ⟨⟨hol, hore, ?_, ?_⟩, ?_⟩
          · exact BAll_mono
              (fun y hy => lt_trans hy ((BAll_iff_mem _ _).mp har x hxr)) _ hal
          · rw [BAll_iff_mem]
            intro y hy
            rw [here, hxs, List.erase_cons_head] at hy
            exact hxtail y hy
          · rw [in_order_node, here, hxs, List.erase_cons_head]
    · by_cases hlt : val < v
      · rw [remove_lt hv hlt]
        obtain ⟨hore, here⟩ := ihl val hol
        have hvnr : val ∉ v :: bt.in_order r := by
          intro hx
          rcases List.mem_cons.mp hx with hx | hx
          · exact hv hx
          · exact lt_asymm hlt ((BAll_iff_mem _ _).mp har val hx)
        refine ⟨⟨hore, hor, ?_, har⟩, ?_⟩
        · rw [BAll_iff_mem]
          intro y hy
          exact (BAll_iff_mem _ _).mp hal y (List.mem_of_mem_erase (here ▸ hy))
        · simp only [bt.in_order]
          by_cases hml : val ∈ bt.in_order l
          · rw [List.erase_append_left _ hml, here]
          · rw [List.erase_append_right _ hml, here,
              List.erase_of_not_mem hml, List.erase_of_not_mem hvnr]
      · have hgt : v < val := lt_of_le_of_ne (not_lt.mp hlt) (fun h2 => hv h2.symm)
        rw [remove_gt hv hlt]
        obtain ⟨hore, here⟩ := ihr val hor
        have hvnl : val ∉ bt.in_order l := fun hx =>
          lt_asymm hgt ((BAll_iff_mem _ _).mp hal val hx)
        refine ⟨⟨hol, hore, hal, ?_⟩, ?_⟩
        · rw [BAll_iff_mem]
          intro y hy
          exact (BAll_iff_mem _ _).mp har y (List.mem_of_mem_erase (here ▸ hy))
        · simp only [bt.in_order]
          rw [List.erase_append_right _ hvnl, here,
            List.erase_cons_tail (not_beq_of_ne (fun h2 => hv h2.symm))]

/-- Running a list of `insert`/`remove` calls from an ordered tree keeps
the tree ordered, and membership afterwards is computed by the presence
bookkeeping seeded with the initial membership. -/
theorem ofOps_fold_spec {α : Type} [LinearOrder α] (ops : List (BstOp α)) (t : BTree α)
    (ho : OrderedB t) :
    OrderedB (ops.foldl
        (fun t op => match op with
          | .ins v => BinarySearchTree.insert t v
          | .del v => BinarySearchTree.remove t v) t) ∧
      ∀ x, (x ∈ bt.in_order (ops.foldl
        (fun t op => match op with
          | .ins v => BinarySearchTree.insert t v
          | .del v => BinarySearchTree.remove t v) t) ↔
        ops.foldl (presentStep x) (decide (x ∈ bt.in_order t)) = true) := by
  induction ops generalizing t with
  | nil => exact ⟨ho, fun x => by simp⟩
  | cons op ops ih =>
    simp only [List.foldl_cons]
    cases op with
    | ins v =>
      obtain ⟨ho1, hmem1, _, _⟩ := bst_insert_spec t v ho
      obtain ⟨hoF, hmemF⟩ := ih (BinarySearchTree.insert t v) ho1
      refine ⟨hoF, fun x => ?_⟩
      rw [hmemF x]
      have hstep : decide (x ∈ bt.in_order (BinarySearchTree.insert t v))
          = presentStep x (decide (x ∈ bt.in_order t)) (BstOp.ins v) := by
        simp only [presentStep]
        by_cases hvx : v = x
        · subst hvx
          rw [if_pos rfl, decide_eq_true_iff]
          exact (hmem1 v).mpr (Or.inl rfl)
        · rw [if_neg hvx, decide_eq_decide]
          rw [hmem1 x]
          exact ⟨fun hh => hh.elim (fun heq => absurd heq.symm hvx) id, Or.inr⟩
      rw [hstep]
    | del v =>
      obtain ⟨ho1, herase⟩ := bst_remove_spec t v ho
      obtain ⟨hoF, hmemF⟩ := ih (BinarySearchTree.remove t v) ho1
      refine ⟨hoF, fun x => ?_⟩
      rw [hmemF x]
      have hnd : (bt.in_order t).Nodup := OrderedB_nodup t ho
      have hstep : decide (x ∈ bt.in_order (BinarySearchTree.remove t v))
          = presentStep x (decide (x ∈ bt.in_order t)) (BstOp.del v) := by
        simp only [presentStep]
        by_cases hvx : v = x
        · subst hvx
          rw [if_pos rfl, decide_eq_false_iff_not, herase]
          exact hnd.not_mem_erase
        · rw [if_neg hvx, decide_eq_decide, herase, hnd.mem_erase_iff]
          exact ⟨fun hh => hh.2, fun hh => ⟨fun heq => hvx heq.symm, hh⟩⟩
      rw [hstep]

/-- Every `BinarySearchTree` reachable through the public API (a run of
`insert` and `remove` calls from `new()`) is ordered, and its members are
exactly the values the presence bookkeeping reports. -/
theorem ofOps_spec {α : Type} [LinearOrder α] (ops : List (BstOp α)) :
    OrderedB (BinarySearchTree.ofOps ops) ∧
      ∀ x, (x ∈ bt.in_order (BinarySearchTree.ofOps ops) ↔ presentAfter ops x = true) := by
  obtain ⟨ho, hmem⟩ := ofOps_fold_spec ops BTree.nil trivial
  exact ⟨ho, fun x => by simpa [bt.in_order, presentAfter] using hmem x⟩

theorem presentStep_true {α : Type} [DecidableEq α] (v : α) (post : List (BstOp α))
    (hpost : BstOp.del v ∉ post) :
    List.foldl (presentStep v) true post = true := by
  induction post with
  | nil => rfl
  | cons op ops ih =>
    rw [List.foldl_cons]
    have hop : presentStep v true op = true := by
      cases op with
      | ins w =>
        simp only [presentStep]
        by_cases hw : w = v
        · rw [if_pos hw]
        · rw [if_neg hw]
      | del w =>
        have hw : ¬w = v := fun hwv =>
          hpost (hwv ▸ List.mem_cons_self _ _)
        simp only [presentStep]
        rw [if_neg hw]
    rw [hop]
    exact ih fun hmem => hpost (List.mem_cons_of_mem _ hmem)

/-- A value inserted at some point and never removed afterwards is
present at the end of the run. -/
theorem presentAfter_true_of_ins {α : Type} [DecidableEq α] (pre post : List (BstOp α))
    (v : α) (hpost : BstOp.del v ∉ post) :
    presentAfter (pre ++ BstOp.ins v :: post) v = true := by
  unfold presentAfter
  rw [List.foldl_append, List.foldl_cons]
  have hins : presentStep v (List.foldl (presentStep v) false pre) (BstOp.ins v) = true := by
    simp [presentStep]
  rw [hins]
  exact presentStep_true v post hpost

/-- A value never inserted is absent at the end of the run. -/
theorem presentAfter_false_of_never {α : Type} [DecidableEq α] (ops : List (BstOp α))
    (v : α) (hins : BstOp.ins v ∉ ops) :
    presentAfter ops v = false := by
  unfold presentAfter
  induction ops with
  | nil => rfl
  | cons op ops ih =>
    rw [List.foldl_cons]
    have hop : presentStep v false op = false := by
      cases op with
      | ins w =>
        have hw : ¬w = v := fun hwv => hins (hwv ▸ List.mem_cons_self _ _)
        simp only [presentStep]
        rw [if_neg hw]
      | del w =>
        simp only [presentStep]
        by_cases hw : w = v
        · rw [if_pos hw]
        · rw [if_neg hw]
    rw [hop]
    exact ih fun hmem => hins (List.mem_cons_of_mem _ hmem)

/-- `AvlTree::search` on an ordered tree: a present target is returned as
the node holding it, an absent target yields `none`. -/
theorem avl_search_spec {α : Type} [LinearOrder α] (t : AvlNode α) (target : α)
    (ho : OrderedA t) :
    (target ∈ inorderA t →
      ∃ h2 l2 r2, AvlTree.search t target = some (AvlNode.node target h2 l2 r2)) ∧
    (target ∉ inorderA t → AvlTree.search t target = none) := by
  induction t with
  | nil => exact ⟨fun hx => by simp [inorderA] at hx, fun _ => rfl⟩
  | node v h l r ihl ihr =>
    obtain ⟨hol, hor, hal, har⟩ := ho
    simp only [AvlTree.search]
    by_cases hv : target = v
    · rw [if_pos hv]
      subst hv
      exact ⟨fun _ => ⟨h, l, r, rfl⟩,
        fun hn => absurd (by simp [inorderA] :
          target ∈ inorderA (AvlNode.node target h l r)) hn⟩
    · rw [if_neg hv]
      by_cases hlt : target < v
      · rw [if_pos hlt]
        have heq : target ∈ inorderA (AvlNode.node v h l r) ↔ target ∈ inorderA l := by
          simp only [inorderA, List.mem_append, List.mem_cons]
          constructor
          · rintro (hx | hx | hx)
            · exact hx
            · exact absurd hx hv
            · exact absurd ((AllNodes_iff_mem _ _).mp har target hx) (lt_asymm hlt)
          · exact Or.inl
        rw [heq]
        exact ihl hol
      · have hgt : v < target := lt_of_le_of_ne (not_lt.mp hlt) (fun h2 => hv h2.symm)
        rw [if_neg hlt]
        have heq : target ∈ inorderA (AvlNode.node v h l r) ↔ target ∈ inorderA r := by
          simp only [inorderA, List.mem_append, List.mem_cons]
          constructor
          · rintro (hx | hx | hx)
            · exact absurd ((AllNodes_iff_mem _ _).mp hal target hx) (lt_asymm hgt)
            · exact absurd hx hv
            · exact hx
          · exact fun hx => Or.inr (Or.inr hx)
        rw [heq]
        exact ihr hor

/-! ## BFS / DFS / recursive search equivalence -/

theorem bfs_loop_spec {α : Type} [DecidableEq α] (val : α) (q : List (BTree α)) :
    bfs_loop val q = q.any (fun t => bt.contains t val) := by
  refine bfs_loop.induct val
    (fun q => bfs_loop val q = q.any (fun t => bt.contains t val)) ?_ ?_ ?_ ?_ q
  · simp [bfs_loop]
  · intro rest ih
    simp [bfs_loop, bt.contains, ih]
  · intro l r rest
    rcases l with _ | ⟨a, b, c⟩ <;> rcases r with _ | ⟨d, e, f⟩ <;>
      simp [bfs_loop, bt.contains]
  · intro v l r rest hv ih
    rcases l with _ | ⟨a, b, c⟩ <;> rcases r with _ | ⟨d, e, f⟩ <;>
      simp only [List.append_nil] at ih <;>
      simp only [bfs_loop, if_neg hv, List.append_nil] <;>
      rw [ih] <;>
      simp [bt.contains, hv, Bool.or_comm, Bool.or_assoc, Bool.or_left_comm]

theorem dfs_loop_spec {α : Type} [DecidableEq α] (val : α) (q : List (BTree α)) :
    dfs_loop val q = q.any (fun t => bt.contains t val) := by
  refine dfs_loop.induct val
    (fun q => dfs_loop val q = q.any (fun t => bt.contains t val)) ?_ ?_ ?_ ?_ q
  · simp [dfs_loop]
  · intro rest ih
    simp [dfs_loop, bt.contains, ih]
  · intro l r rest
    rcases l with _ | ⟨a, b, c⟩ <;> rcases r with _ | ⟨d, e, f⟩ <;>
      simp [dfs_loop, bt.contains]
  · intro v l r rest hv ih
    rcases l with _ | ⟨a, b, c⟩ <;> rcases r with _ | ⟨d, e, f⟩ <;>
      simp only [List.nil_append] at ih <;>
      simp only [dfs_loop, if_neg hv, List.nil_append] <;>
      rw [ih] <;>
      simp [bt.contains, hv, Bool.or_comm, Bool.or_assoc, Bool.or_left_comm]

/-- `contains_bfs` agrees with the recursive `contains` on every tree. -/
theorem contains_bfs_eq_contains {α : Type} [DecidableEq α] (root : BTree α) (val : α) :
    bt.contains_bfs root val = bt.contains root val := by
  rcases root with _ | ⟨v, l, r⟩ <;>
    simp [bt.contains_bfs, bfs_loop_spec, bt.contains]

/-- `contains_dfs` agrees with the recursive `contains` on every tree. -/
theorem contains_dfs_eq_contains {α : Type} [DecidableEq α] (root : BTree α) (val : α) :
    bt.contains_dfs root val = bt.contains root val := by
  rcases root with _ | ⟨v, l, r⟩ <;>
    simp [bt.contains_dfs, dfs_loop_spec, bt.contains]

/-- The recursive `contains` decides membership in the in-order sequence,
i.e. whether some node holds a value equal to the target. -/
theorem contains_iff_mem {α : Type} [DecidableEq α] (root : BTree α) (val : α) :
    bt.contains root val = true ↔ val ∈ bt.in_order root := by
  induction root with
  | nil => simp [bt.contains, bt.in_order]
  | node v l r ihl ihr =>
    simp only [bt.contains, bt.in_order, List.mem_append, List.mem_cons]
    by_cases hv : v = val
    · simp [hv]
    · rw [if_neg hv, Bool.or_eq_true, ihl, ihr]
      constructor
      · rintro (hx | hx)
        · exact Or.inl hx
        · exact Or.inr (Or.inr hx)
      · rintro (hx | hx | hx)
        · exact Or.inl hx
        · exact absurd hx.symm hv
        · exact Or.inr hx

/-! ## Level-order insertion into the plain binary tree -/

theorem subtreeAt_append {α : Type} (p : List Bool) (t : BTree α) (d : Bool)
    (v : α) (l r : BTree α) (hsub : subtreeAt t p = some (BTree.node v l r)) :
    subtreeAt t (p ++ [d]) = some (if d then r else l) := by
  induction p generalizing t with
  | nil =>
    obtain rfl : t = BTree.node v l r := by simpa [subtreeAt] using hsub
    cases d <;> simp [subtreeAt]
  | cons d2 p ih =>
    cases t with
    | nil => simp [subtreeAt] at hsub
    | node v2 l2 r2 =>
      simp only [subtreeAt, List.cons_append] at hsub ⊢
      exact ih _ hsub

theorem graft_values {α : Type} (p : List Bool) (t s s2 : BTree α)
    (hsub : subtreeAt t p = some s) :
    (graft t p s2).values + s.values = t.values + s2.values := by
  classical
  induction p generalizing t with
  | nil =>
    obtain rfl : t = s := by simpa [subtreeAt] using hsub
    simp [graft]
    exact add_comm _ _
  | cons d p ih =>
    cases t with
    | nil => simp [subtreeAt] at hsub
    | node v l r =>
      simp only [subtreeAt] at hsub
      cases d with
      | false =>
        simp only [graft, if_neg (by simp : ¬false = true), BTree.values]
        have hg := ih l hsub
        rw [Multiset.ext]
        intro a
        have hc := congrArg (Multiset.count a) hg
        simp only [Multiset.count_add, Multiset.count_cons] at hc ⊢
        split_ifs <;> omega
      | true =>
        simp only [graft, if_pos rfl, BTree.values]
        have hg := ih r hsub
        rw [Multiset.ext]
        intro a
        have hc := congrArg (Multiset.count a) hg
        simp only [Multiset.count_add, Multiset.count_cons] at hc ⊢
        split_ifs <;> omega

theorem insert_level_loop_values {α : Type} (val : α) (t : BTree α)
    (q : List (List Bool × BTree α)) (hq : q ≠ [])
    (hvalid : ∀ e ∈ q, subtreeAt t e.1 = some e.2 ∧ e.2 ≠ BTree.nil) :
    (insert_level_loop val t q).values = val ::ₘ t.values := by
  classical
  refine insert_level_loop.induct val t
    (fun q => q ≠ [] → (∀ e ∈ q, subtreeAt t e.1 = some e.2 ∧ e.2 ≠ BTree.nil) →
      (insert_level_loop val t q).values = val ::ₘ t.values) ?_ ?_ ?_ ?_ ?_ q hq hvalid
  · intro h _
    exact absurd rfl h
  · intro p rest ih _ h2
    exact absurd rfl (h2 (p, BTree.nil) (List.mem_cons_self _ _)).2
  · intro p v r rest _ h2
    have hsub := (h2 (p, BTree.node v BTree.nil r) (List.mem_cons_self _ _)).1
    rw [show insert_level_loop val t ((p, BTree.node v BTree.nil r) :: rest)
        = graft t p (BTree.node v (BTree.node val BTree.nil BTree.nil) r) from by
      simp [insert_level_loop]]
    have hg := graft_values p t (BTree.node v BTree.nil r)
      (BTree.node v (BTree.node val BTree.nil BTree.nil) r) hsub
    rw [Multiset.ext]
    intro a
    have hc := congrArg (Multiset.count a) hg
    simp only [BTree.values, Multiset.count_add, Multiset.count_cons,
      Multiset.count_zero] at hc ⊢
    split_ifs at hc ⊢ <;> omega
  · intro p v rest la lb lc _ h2
    have hsub := (h2 (p, BTree.node v (BTree.node la lb lc) BTree.nil)
      (List.mem_cons_self _ _)).1
    rw [show insert_level_loop val t
          ((p, BTree.node v (BTree.node la lb lc) BTree.nil) :: rest)
        = graft t p (BTree.node v (BTree.node la lb lc)
            (BTree.node val BTree.nil BTree.nil)) from by
      simp [insert_level_loop]]
    have hg := graft_values p t (BTree.node v (BTree.node la lb lc) BTree.nil)
      (BTree.node v (BTree.node la lb lc) (BTree.node val BTree.nil BTree.nil)) hsub
    rw [Multiset.ext]
    intro a
    have hc := congrArg (Multiset.count a) hg
    simp only [BTree.values, Multiset.count_add, Multiset.count_cons,
      Multiset.count_zero] at hc ⊢
    split_ifs at hc ⊢ <;> omega
  · intro p v rest la lb lc ra rb rc ih _ h2
    have hsub := (h2 (p, BTree.node v (BTree.node la lb lc) (BTree.node ra rb rc))
      (List.mem_cons_self _ _)).1
    rw [show insert_level_loop val t
          ((p, BTree.node v (BTree.node la lb lc) (BTree.node ra rb rc)) :: rest)
        = insert_level_loop val t
            (rest ++ [(p ++ [false], BTree.node la lb lc),
                      (p ++ [true], BTree.node ra rb rc)]) from by
      simp [insert_level_loop]]
    refine ih (by simp) ?_
    intro e he
    rcases List.mem_append.mp he with he | he
    · exact h2 e (List.mem_cons_of_mem _ he)
    · rcases List.mem_cons.mp he with rfl | he
      · exact ⟨by simpa using subtreeAt_append p t false v _ _ hsub, by simp⟩
      · rcases List.mem_cons.mp he with rfl | he
        · exact ⟨by simpa using subtreeAt_append p t true v _ _ hsub, by simp⟩
        · simp at he

/-- `BinaryTree::insert` always adds exactly the new value: the stored
multiset gains one copy of `val` (so the node count grows by one, and a
duplicate of a stored value is accepted, never rejected). -/
theorem binaryTree_insert_values {α : Type} (t : BTree α) (val : α) :
    (BinaryTree.insert t val).values = val ::ₘ t.values := by
  cases t with
  | nil => simp [BinaryTree.insert, BTree.values]
  | node v l r =>
    rw [show BinaryTree.insert (BTree.node v l r) val
        = insert_level_loop val (BTree.node v l r) [([], BTree.node v l r)] from rfl]
    exact insert_level_loop_values val (BTree.node v l r) _ (by simp)
      (fun e he => by
        rcases List.mem_cons.mp he with rfl | he
        · exact ⟨rfl, by simp⟩
        · simp at he)

theorem values_card_eq_size {α : Type} (t : BTree α) :
    Multiset.card t.values = t.size := by
  induction t with
  | nil => simp [BTree.values, BTree.size]
  | node v l r ihl ihr =>
    simp [BTree.values, BTree.size, ihl, ihr]

/-- `BinaryTree::insert` increases the node count by exactly one. -/
theorem binaryTree_insert_size {α : Type} (t : BTree α) (val : α) :
    (BinaryTree.insert t val).size = t.size + 1 := by
  rw [← values_card_eq_size, ← values_card_eq_size, binaryTree_insert_values]
  simp

/-! ## The AVL height bound -/

/-- Minimal-size bound for balanced height-consistent trees: a tree of
height `h` has at least `fib(h+3) - 1` nodes (stated without subtraction). -/
theorem fib_height_le {α : Type} (t : AvlNode α) (hk : Hok t) (hb : BalancedBF t) :
    Nat.fib ((heightOf t + 1).toNat + 2) ≤ (inorderA t).length + 1 := by
  induction t with
  | nil => simp [heightOf, inorderA]
  | node v h l r ihl ihr =>
    obtain ⟨hkl, hkr, hhe⟩ := hk
    obtain ⟨hbl, hbr, b1, b2⟩ := hb
    have h1 := ihl hkl hbl
    have h2 := ihr hkr hbr
    have hgl := neg_one_le_height l hkl
    have hgr := neg_one_le_height r hkr
    simp only [inorderA, List.length_append, List.length_cons]
    rcases le_total (heightOf r) (heightOf l) with hc | hc
    · have e1 : (heightOf (AvlNode.node v h l r) + 1).toNat + 2
          = ((heightOf l + 1).toNat + 1) + 2 := by
        simp only [heightOf_node]
        omega
      have hsplit : Nat.fib (((heightOf l + 1).toNat + 1) + 2)
          = Nat.fib ((heightOf l + 1).toNat + 1) + Nat.fib ((heightOf l + 1).toNat + 2) :=
        Nat.fib_add_two
      rw [e1, hsplit]
      have m1 : Nat.fib ((heightOf l + 1).toNat + 1) ≤ Nat.fib ((heightOf r + 1).toNat + 2) :=
        Nat.fib_mono (by omega)
      omega
    · have e1 : (heightOf (AvlNode.node v h l r) + 1).toNat + 2
          = ((heightOf r + 1).toNat + 1) + 2 := by
        simp only [heightOf_node]
        omega
      have hsplit : Nat.fib (((heightOf r + 1).toNat + 1) + 2)
          = Nat.fib ((heightOf r + 1).toNat + 1) + Nat.fib ((heightOf r + 1).toNat + 2) :=
        Nat.fib_add_two
      rw [e1, hsplit]
      have m1 : Nat.fib ((heightOf r + 1).toNat + 1) ≤ Nat.fib ((heightOf l + 1).toNat + 2) :=
        Nat.fib_mono (by omega)
      omega

theorem gold_pow_le_fib (n : ℕ) : goldenRatio ^ n ≤ (Nat.fib (n + 2) : ℝ) := by
  induction n using Nat.twoStepInduction with
  | zero => norm_num
  | one =>
    rw [pow_one]
    have : (Nat.fib 3 : ℝ) = 2 := by norm_num [Nat.fib]
    rw [this]
    exact gold_lt_two.le
  | more n ih1 ih2 =>
    have hsub := gold_pow_sub_gold_pow n
    have hfib : (Nat.fib (n + 2 + 2) : ℝ) = Nat.fib (n + 2) + Nat.fib (n + 3) := by
      push_cast [Nat.fib_add_two]
      ring
    rw [hfib]
    have h3 : (Nat.fib (n + 3) : ℝ) = Nat.fib (n + 1 + 2) := by norm_num
    linarith [ih1, ih2, h3 ▸ ih2]

theorem two_pow_le_gold_pow : (2 : ℝ) ^ 20 ≤ goldenRatio ^ 29 := by
  have h5 : (2.236 : ℝ) ≤ Real.sqrt 5 := by
    rw [Real.le_sqrt (by norm_num) (by norm_num)]
    norm_num
  have hphi : (1.618 : ℝ) ≤ goldenRatio := by
    rw [show goldenRatio = (1 + Real.sqrt 5) / 2 from rfl]
    linarith
  calc (2 : ℝ) ^ 20 ≤ (1.618 : ℝ) ^ 29 := by norm_num
    _ ≤ goldenRatio ^ 29 := pow_le_pow_left₀ (by norm_num) hphi 29

theorem logb_two_gold : (20 : ℝ) / 29 ≤ Real.logb 2 goldenRatio := by
  have h1 : Real.logb 2 ((2 : ℝ) ^ 20) ≤ Real.logb 2 (goldenRatio ^ 29) :=
    Real.logb_le_logb_of_le (by norm_num) (by positivity) two_pow_le_gold_pow
  rw [Real.logb_pow, Real.logb_pow, Real.logb_self_eq_one (by norm_num)] at h1
  push_cast at h1
  linarith

/-- The classical AVL height bound, specialised to the constants of the
specification: a balanced, height-consistent tree with at most `N` nodes
has height at most `1.45 * log2(N+2) - 0.33`. -/
theorem avl_height_bound {α : Type} (t : AvlNode α) (hk : Hok t) (hb : BalancedBF t)
    (N : ℕ) (hs : (inorderA t).length ≤ N) :
    (heightOf t : ℝ) ≤ 1.45 * Real.logb 2 ((N : ℝ) + 2) - 0.33 := by
  have hge : -1 ≤ heightOf t := neg_one_le_height t hk
  have hk_int : heightOf t + 1 = ((heightOf t + 1).toNat : Int) := by omega
  have hfib : Nat.fib ((heightOf t + 1).toNat + 2) ≤ (inorderA t).length + 1 :=
    fib_height_le t hk hb
  have hfibN : (Nat.fib ((heightOf t + 1).toNat + 2) : ℝ) ≤ (N : ℝ) + 2 := by
    have : Nat.fib ((heightOf t + 1).toNat + 2) ≤ N + 2 := by omega
    exact_mod_cast this
  have hpow : goldenRatio ^ ((heightOf t + 1).toNat) ≤ (N : ℝ) + 2 :=
    le_trans (gold_pow_le_fib _) hfibN
  have hlog : Real.logb 2 (goldenRatio ^ ((heightOf t + 1).toNat))
      ≤ Real.logb 2 ((N : ℝ) + 2) :=
    Real.logb_le_logb_of_le (by norm_num) (by positivity) hpow
  rw [Real.logb_pow] at hlog
  have hphi := logb_two_gold
  have hknn : (0 : ℝ) ≤ ((heightOf t + 1).toNat : ℝ) := by positivity
  have h20 : ((heightOf t + 1).toNat : ℝ) * (20 / 29) ≤ Real.logb 2 ((N : ℝ) + 2) :=
    le_trans (mul_le_mul_of_nonneg_left hphi hknn) hlog
  have hcast : ((heightOf t : ℝ)) + 1 = ((heightOf t + 1).toNat : ℝ) := by
    exact_mod_cast hk_int
  linarith

/-! ## Bridge lemmas -/

/-- `AvlTree::to_tree` preserves the in-order sequence: `to_vec` of the
clone equals the AVL in-order sequence. -/
theorem clone_tree_in_order {α : Type} (t : AvlNode α) :
    bt.in_order (clone_tree t) = inorderA t := by
  induction t with
  | nil => rfl
  | node v h l r ihl ihr => simp [clone_tree, bt.in_order, inorderA, ihl, ihr]

/-- A `BinarySearchTree` built by insertions only: ordered, members are
exactly the inserted values. -/
theorem bst_insert_foldl_spec {α : Type} [LinearOrder α] (vs : List α) (t : BTree α)
    (ho : OrderedB t) :
    OrderedB (vs.foldl BinarySearchTree.insert t) ∧
      ∀ x, (x ∈ bt.in_order (vs.foldl BinarySearchTree.insert t) ↔
        x ∈ vs ∨ x ∈ bt.in_order t) := by
  induction vs generalizing t with
  | nil => exact ⟨ho, fun x => by simp⟩
  | cons v vs ih =>
    rw [List.foldl_cons]
    obtain ⟨ho1, hmem1, _, _⟩ := bst_insert_spec t v ho
    obtain ⟨hoF, hmemF⟩ := ih (BinarySearchTree.insert t v) ho1
    refine ⟨hoF, fun x => ?_⟩
    rw [hmemF x, hmem1 x, List.mem_cons, or_assoc]
    exact or_left_comm

theorem bst_ofList_spec {α : Type} [LinearOrder α] (vs : List α) :
    OrderedB (BinarySearchTree.ofList vs) ∧
      ∀ x, (x ∈ bt.in_order (BinarySearchTree.ofList vs) ↔ x ∈ vs) := by
  obtain ⟨ho, hmem⟩ := bst_insert_foldl_spec vs BTree.nil trivial
  exact ⟨ho, fun x => by simpa [bt.in_order] using hmem x⟩

/-- Removing an absent value from an ordered tree is a structural no-op. -/
theorem bst_remove_noop {α : Type} [LinearOrder α] (t : BTree α) (val : α)
    (ho : OrderedB t) (hnm : val ∉ bt.in_order t) :
    BinarySearchTree.remove t val = t := by
  induction t with
  | nil => rfl
  | node v l r ihl ihr =>
    obtain ⟨hol, hor, hal, har⟩ := ho
    have hv : ¬val = v := fun hveq =>
      hnm (by simp only [bt.in_order, List.mem_append, List.mem_cons]
              exact Or.inr (Or.inl hveq))
    by_cases hlt : val < v
    · rw [remove_lt hv hlt, ihl hol (fun hx =>
        hnm (by simp only [bt.in_order, List.mem_append]; exact Or.inl hx))]
    · rw [remove_gt hv hlt, ihr hor (fun hx =>
        hnm (by simp only [bt.in_order, List.mem_append, List.mem_cons]
                exact Or.inr (Or.inr hx)))]

/-! ## The claims -/

/-- C1: for every sequence of values inserted into an `AvlTree` (starting
empty, mutated only through `insert`), immediately after each insert call
completes every node has a balance factor — height of left subtree minus
height of right subtree, an absent subtree counting as height `-1` — in
the range `[-1, 1]`.  (Quantifying over all insertion sequences covers
every intermediate tree, since each prefix is itself a sequence.) -/
theorem claim_C1_balance_invariant (α : Type) [LinearOrder α] (vs : List α) :
    ∃ t, AvlTree.ofList vs = some t ∧ BalancedReal t := by
  obtain ⟨t, hfold, hk, hb, _, _, _⟩ := ofList_spec vs
  exact ⟨t, hfold, (Hok_balancedBF_iff_real t hk).mp hb⟩

/-- C2: for every insertion sequence, `BinarySearchTree::to_vec` (in-order
traversal) lists the distinct inserted values in strictly ascending order,
and for every insertion sequence into an `AvlTree`,
`to_tree().to_vec()` does the same (duplicates collapse: the produced
strictly-sorted list has exactly the inserted values as members). -/
theorem claim_C2_inorder_sorted (α : Type) [LinearOrder α] (vs : List α) :
    (List.Sorted (fun a b => a < b) (bt.in_order (BinarySearchTree.ofList vs)) ∧
      ∀ x, (x ∈ bt.in_order (BinarySearchTree.ofList vs) ↔ x ∈ vs)) ∧
    ∃ t, AvlTree.ofList vs = some t ∧
      List.Sorted (fun a b => a < b) (bt.in_order (clone_tree t)) ∧
      ∀ x, (x ∈ bt.in_order (clone_tree t) ↔ x ∈ vs) := by
  obtain ⟨hob, hmb⟩ := bst_ofList_spec vs
  obtain ⟨t, hfold, _, _, ho, hmem, _⟩ := ofList_spec vs
  refine ⟨⟨OrderedB_sorted _ hob, hmb⟩, t, hfold, ?_, ?_⟩
  · rw [clone_tree_in_order]
    exact OrderedA_sorted t ho
  · intro x
    rw [clone_tree_in_order]
    exact hmem x

/-- C3: for every insertion sequence into an `AvlTree`, after each insert
call every node's cached `height` field equals
`1 + max(height(left child), height(right child))`, an absent child
having height `-1` (`Hok`). -/
theorem claim_C3_height_cache (α : Type) [LinearOrder α] (vs : List α) :
    ∃ t, AvlTree.ofList vs = some t ∧ Hok t := by
  obtain ⟨t, hfold, hk, _, _, _, _⟩ := ofList_spec vs
  exact ⟨t, hfold, hk⟩

/-- C4: during any `AvlTree` insertion the rotation repair never panics:
a node with (cached) balance factor `> 1` necessarily has a live left
child and one with balance factor `< -1` a live right child, and —
`none` standing for a Rust `unwrap()` panic in the embedding — every run
of insertions returns `some` tree, so the `unwrap`s inside
`right_rotate`, `left_rotate` and `rotate` never fire on `None`. -/
theorem claim_C4_rotate_safety (α : Type) [LinearOrder α] :
    (∀ vs : List α, ∃ t, AvlTree.ofList vs = some t) ∧
    (∀ u : AvlNode α, Hok u →
      (1 < balance_factor u →
        ∃ v h l r, u = AvlNode.node v h l r ∧ l ≠ AvlNode.nil) ∧
      (balance_factor u < -1 →
        ∃ v h l r, u = AvlNode.node v h l r ∧ r ≠ AvlNode.nil)) := by
  constructor
  · intro vs
    obtain ⟨t, hfold, _⟩ := ofList_spec vs
    exact ⟨t, hfold⟩
  · intro u hk
    constructor
    · intro hbf
      cases u with
      | nil => simp [balance_factor] at hbf
      | node v h l r =>
        obtain ⟨hkl, hkr, _⟩ := hk
        rw [bf_node] at hbf
        have hr := neg_one_le_height r hkr
        refine ⟨v, h, l, r, rfl, ?_⟩
        intro hl
        rw [hl, show heightOf (AvlNode.nil : AvlNode α) = -1 from rfl] at hbf
        omega
    · intro hbf
      cases u with
      | nil => simp [balance_factor] at hbf
      | node v h l r =>
        obtain ⟨hkl, hkr, _⟩ := hk
        rw [bf_node] at hbf
        have hl := neg_one_le_height l hkl
        refine ⟨v, h, l, r, rfl, ?_⟩
        intro hr
        rw [hr, show heightOf (AvlNode.nil : AvlNode α) = -1 from rfl] at hbf
        omega

/-- Witness for C4 at a concrete left-heavy tree over `ℤ`. -/
theorem claim_C4_rotate_safety_witness :
    Hok (AvlNode.node 5 2 (AvlNode.node 3 1 (AvlNode.node 1 0 AvlNode.nil AvlNode.nil)
        AvlNode.nil) AvlNode.nil : AvlNode ℤ) ∧
    (1 : ℤ) < balance_factor (AvlNode.node 5 2
        (AvlNode.node 3 1 (AvlNode.node 1 0 AvlNode.nil AvlNode.nil) AvlNode.nil)
        AvlNode.nil : AvlNode ℤ) ∧
    ∃ v h l r, (AvlNode.node 5 2
        (AvlNode.node 3 1 (AvlNode.node 1 0 AvlNode.nil AvlNode.nil) AvlNode.nil)
        AvlNode.nil : AvlNode ℤ) = AvlNode.node v h l r ∧ l ≠ AvlNode.nil := by
  have hk : Hok (AvlNode.node 5 2 (AvlNode.node 3 1
      (AvlNode.node 1 0 AvlNode.nil AvlNode.nil) AvlNode.nil) AvlNode.nil : AvlNode ℤ) := by
    refine ⟨⟨⟨trivial, trivial, ?_⟩, trivial, ?_⟩, trivial, ?_⟩ <;> simp [heightOf]
  have hbf : (1 : ℤ) < balance_factor (AvlNode.node 5 2 (AvlNode.node 3 1
      (AvlNode.node 1 0 AvlNode.nil AvlNode.nil) AvlNode.nil) AvlNode.nil : AvlNode ℤ) := by
    simp [balance_factor, heightOf]
  exact ⟨hk, hbf, ((claim_C4_rotate_safety ℤ).2 _ hk).1 hbf⟩

/-- C5: for every `BinarySearchTree` built by insertions and removals,
a value inserted and not later removed is found by `search` as a node
holding exactly that value, and a value never inserted is not found; the
same holds for every `AvlTree` built by insertions. -/
theorem claim_C5_search_correct (α : Type) [LinearOrder α] (ops : List (BstOp α))
    (vs : List α) (v : α) :
    ((∃ pre post, ops = pre ++ BstOp.ins v :: post ∧ BstOp.del v ∉ post) →
      ∃ l2 r2, BinarySearchTree.search (BinarySearchTree.ofOps ops) v
        = some (BTree.node v l2 r2)) ∧
    (BstOp.ins v ∉ ops →
      BinarySearchTree.search (BinarySearchTree.ofOps ops) v = none) ∧
    (v ∈ vs → ∃ t h2 l2 r2, AvlTree.ofList vs = some t ∧
      AvlTree.search t v = some (AvlNode.node v h2 l2 r2)) ∧
    (v ∉ vs → ∃ t, AvlTree.ofList vs = some t ∧ AvlTree.search t v = none) := by
  obtain ⟨hoB, hmB⟩ := ofOps_spec ops
  refine ⟨?_, ?_, ?_, ?_⟩
  · rintro ⟨pre, post, rfl, hpost⟩
    exact (bst_search_spec _ v hoB).1
      ((hmB v).mpr (presentAfter_true_of_ins pre post v hpost))
  · intro hnin
    refine (bst_search_spec _ v hoB).2 fun hx => ?_
    rw [hmB v, presentAfter_false_of_never ops v hnin] at hx
    exact Bool.false_ne_true hx
  · intro hv
    obtain ⟨t, hfold, _, _, hoA, hmem, _⟩ := ofList_spec vs
    obtain ⟨h2, l2, r2, hs⟩ := (avl_search_spec t v hoA).1 ((hmem v).mpr hv)
    exact ⟨t, h2, l2, r2, hfold, hs⟩
  · intro hv
    obtain ⟨t, hfold, _, _, hoA, hmem, _⟩ := ofList_spec vs
    exact ⟨t, hfold, (avl_search_spec t v hoA).2 (fun hx => hv ((hmem v).mp hx))⟩

/-- Witness for C5 over `ℤ`: the specification scenarios — in the tree
built from `[4,2,6,1,3,5,7]`, `5` (inserted, never removed) is found and
`8` (never inserted) is not; in the AVL tree built from `[1,3,4,5,7]`,
`5` is found and `6` is not. -/
theorem claim_C5_search_correct_witness :
    (∃ l2 r2, BinarySearchTree.search (BinarySearchTree.ofOps
        [BstOp.ins (4 : ℤ), BstOp.ins 2, BstOp.ins 6, BstOp.ins 1,
         BstOp.ins 3, BstOp.ins 5, BstOp.ins 7]) 5 = some (BTree.node 5 l2 r2)) ∧
    BinarySearchTree.search (BinarySearchTree.ofOps
        [BstOp.ins (4 : ℤ), BstOp.ins 2, BstOp.ins 6, BstOp.ins 1,
         BstOp.ins 3, BstOp.ins 5, BstOp.ins 7]) 8 = none ∧
    (∃ t h2 l2 r2, AvlTree.ofList [(1 : ℤ), 3, 4, 5, 7] = some t ∧
      AvlTree.search t 5 = some (AvlNode.node 5 h2 l2 r2)) ∧
    (∃ t, AvlTree.ofList [(1 : ℤ), 3, 4, 5, 7] = some t ∧ AvlTree.search t 6 = none) :=
  ⟨(claim_C5_search_correct ℤ _ [(1 : ℤ), 3, 4, 5, 7] 5).1
      ⟨[BstOp.ins 4, BstOp.ins 2, BstOp.ins 6, BstOp.ins 1, BstOp.ins 3],
       [BstOp.ins 7], rfl, by decide⟩,
   (claim_C5_search_correct ℤ _ [(1 : ℤ), 3, 4, 5, 7] 8).2.1 (by decide),
   (claim_C5_search_correct ℤ [] [(1 : ℤ), 3, 4, 5, 7] 5).2.2.1 (by decide),
   (claim_C5_search_correct ℤ [] [(1 : ℤ), 3, 4, 5, 7] 6).2.2.2 (by decide)⟩

/-- C6: removal from a `BinarySearchTree` built through the API: if the
value is present, afterwards `search` does not find it and `to_vec`
equals the old `to_vec` with that one occurrence deleted, still sorted
strictly ascending; if the value is absent (including the empty tree),
`remove` leaves the tree unchanged. -/
theorem claim_C6_remove_correct (α : Type) [LinearOrder α] (ops : List (BstOp α))
    (val : α) :
    (val ∈ bt.in_order (BinarySearchTree.ofOps ops) →
      BinarySearchTree.search
          (BinarySearchTree.remove (BinarySearchTree.ofOps ops) val) val = none ∧
        bt.in_order (BinarySearchTree.remove (BinarySearchTree.ofOps ops) val)
          = (bt.in_order (BinarySearchTree.ofOps ops)).erase val ∧
        List.Sorted (fun a b => a < b)
          (bt.in_order (BinarySearchTree.remove (BinarySearchTree.ofOps ops) val))) ∧
    (val ∉ bt.in_order (BinarySearchTree.ofOps ops) →
      BinarySearchTree.remove (BinarySearchTree.ofOps ops) val
        = BinarySearchTree.ofOps ops) := by
  obtain ⟨hoB, _⟩ := ofOps_spec ops
  obtain ⟨hor, here⟩ := bst_remove_spec (BinarySearchTree.ofOps ops) val hoB
  refine ⟨fun _ => ⟨?_, here, OrderedB_sorted _ hor⟩,
    fun hnm => bst_remove_noop _ val hoB hnm⟩
  refine (bst_search_spec _ val hor).2 fun hx => ?_
  rw [here] at hx
  exact (OrderedB_nodup _ hoB).not_mem_erase hx

/-- Witness for C6 over `ℤ`: the specification scenario — build from
`[4,2,6,1,3,5,7]`, remove the present `4` and the absent `8`. -/
theorem claim_C6_remove_correct_witness :
    (BinarySearchTree.search
        (BinarySearchTree.remove (BinarySearchTree.ofOps
          [BstOp.ins (4 : ℤ), BstOp.ins 2, BstOp.ins 6, BstOp.ins 1,
           BstOp.ins 3, BstOp.ins 5, BstOp.ins 7]) 4) 4 = none ∧
      bt.in_order (BinarySearchTree.remove (BinarySearchTree.ofOps
          [BstOp.ins (4 : ℤ), BstOp.ins 2, BstOp.ins 6, BstOp.ins 1,
           BstOp.ins 3, BstOp.ins 5, BstOp.ins 7]) 4)
        = (bt.in_order (BinarySearchTree.ofOps
          [BstOp.ins (4 : ℤ), BstOp.ins 2, BstOp.ins 6, BstOp.ins 1,
           BstOp.ins 3, BstOp.ins 5, BstOp.ins 7])).erase 4 ∧
      List.Sorted (fun a b => a < b)
        (bt.in_order (BinarySearchTree.remove (BinarySearchTree.ofOps
          [BstOp.ins (4 : ℤ), BstOp.ins 2, BstOp.ins 6, BstOp.ins 1,
           BstOp.ins 3, BstOp.ins 5, BstOp.ins 7]) 4))) ∧
    BinarySearchTree.remove (BinarySearchTree.ofOps
        [BstOp.ins (4 : ℤ), BstOp.ins 2, BstOp.ins 6, BstOp.ins 1,
         BstOp.ins 3, BstOp.ins 5, BstOp.ins 7]) 8
      = BinarySearchTree.ofOps
        [BstOp.ins (4 : ℤ), BstOp.ins 2, BstOp.ins 6, BstOp.ins 1,
         BstOp.ins 3, BstOp.ins 5, BstOp.ins 7] :=
  ⟨(claim_C6_remove_correct ℤ _ 4).1 (by decide),
   (claim_C6_remove_correct ℤ _ 8).2 (by decide)⟩

/-- C7: for every finite binary tree and every target value,
`contains_bfs`, `contains_dfs` and the recursive `contains` return the
same boolean, which is `true` exactly when some node of the tree holds a
value equal to the target (membership in the in-order enumeration). -/
theorem claim_C7_search_equivalence (α : Type) [DecidableEq α] (root : BTree α)
    (val : α) :
    bt.contains_bfs root val = bt.contains root val ∧
      bt.contains_dfs root val = bt.contains root val ∧
      (bt.contains root val = true ↔ val ∈ bt.in_order root) :=
  ⟨contains_bfs_eq_contains root val, contains_dfs_eq_contains root val,
    contains_iff_mem root val⟩

/-- C8: inserting a value already present is a silent no-op for both tree
kinds: the `BinarySearchTree` is returned structurally unchanged, and the
`AvlTree` insertion returns (`some` — no panic) exactly the old tree,
including every cached height. -/
theorem claim_C8_duplicate_noop (α : Type) [LinearOrder α] (vs : List α) (v : α)
    (hmem : v ∈ vs) :
    BinarySearchTree.insert (BinarySearchTree.ofList vs) v
        = BinarySearchTree.ofList vs ∧
      ∃ t, AvlTree.ofList vs = some t ∧ AvlTree.insert t v = some t := by
  obtain ⟨hoB, hmB⟩ := bst_ofList_spec vs
  obtain ⟨t, hfold, hk, hb, hoA, hmemA, _⟩ := ofList_spec vs
  obtain ⟨u, hins, _, _, _, _, _, hnoop, _⟩ := insert_spec t v hk hb hoA
  refine ⟨(bst_insert_spec _ v hoB).2.2.1 ((hmB v).mpr hmem), t, hfold, ?_⟩
  rw [show AvlTree.insert t v = insert_recursive t v from rfl, hins,
    hnoop ((hmemA v).mpr hmem)]

/-- Witness for C8 over `ℤ`: re-inserting `3` into the trees built from
`[1, 2, 3]`. -/
theorem claim_C8_duplicate_noop_witness :
    (3 : ℤ) ∈ [(1 : ℤ), 2, 3] ∧
      (BinarySearchTree.insert (BinarySearchTree.ofList [(1 : ℤ), 2, 3]) 3
          = BinarySearchTree.ofList [(1 : ℤ), 2, 3] ∧
        ∃ t, AvlTree.ofList [(1 : ℤ), 2, 3] = some t ∧ AvlTree.insert t 3 = some t) :=
  ⟨by decide, claim_C8_duplicate_noop ℤ [(1 : ℤ), 2, 3] 3 (by decide)⟩

/-- C9: inserting the ascending run `1..N` into an empty `AvlTree` yields
a tree of height at most `1.45 * log2(N+2) - 0.33`. -/
theorem claim_C9_height_bound (N : ℕ) (_h1N : 1 ≤ N) :
    ∃ t, AvlTree.ofList (ascRun N) = some t ∧
      (heightOf t : ℝ) ≤ 1.45 * Real.logb 2 ((N : ℝ) + 2) - 0.33 := by
  obtain ⟨t, hfold, hk, hb, _, _, hlen⟩ := ofList_spec (ascRun N)
  refine ⟨t, hfold, avl_height_bound t hk hb N ?_⟩
  have hl2 : (ascRun N).length = N := by
    unfold ascRun
    rw [List.length_map, List.length_range]
  rw [hl2] at hlen
  exact hlen

/-- Witness for C9 at `N = 1`. -/
theorem claim_C9_height_bound_witness :
    1 ≤ 1 ∧ ∃ t, AvlTree.ofList (ascRun 1) = some t ∧
      (heightOf t : ℝ) ≤ 1.45 * Real.logb 2 ((1 : ℕ) + 2 : ℝ) - 0.33 :=
  ⟨le_refl 1, claim_C9_height_bound 1 (le_refl 1)⟩

/-- C10: `BinaryTree::insert` (a total function of the embedding, so it
terminates on every finite tree) adds exactly one node holding the new
value: the stored multiset gains one copy of `val` — with no freshness
condition, so a value equal to one already stored is accepted, never
rejected — and the node count grows by exactly one. -/
theorem claim_C10_level_insert (α : Type) (t : BTree α) (val : α) :
    (BinaryTree.insert t val).size = t.size + 1 ∧
      (BinaryTree.insert t val).values = val ::ₘ t.values :=
  ⟨binaryTree_insert_size t val, binaryTree_insert_values t val⟩
